import Mathlib

/-!
# merCovering: an interval list built from fixed-size pieces

A shallow embedding of `trinity-plugins/kmer/libbio/merCovering.H`.

* The C-style linked list `interval* _intervals` is a `List interval`
  (a null pointer is the empty list, `_next` is the tail).
* `u32bit` values are natural numbers; every arithmetic operation of the
  source is reduced modulo `2^32` explicitly.
* `addMer` scans the list exactly as the `while (c)` loop does; reaching the
  code after the loop is reported as `none` by `scanLoop`.
* `merge` writes through the tail pointer `L`; a write through a null `L` is
  reported as `Fault.nullDeref`.
* `compare` of the test build returns `true` where the method returns and
  `false` where it exits.
-/

/-- The modulus of `u32bit` arithmetic. -/
def u32Mod : Nat := 4294967296

/-- Class `merCovering::interval`: the half-open range from `_lo` to `_hi`.
The `_next` pointer is the tail of the enclosing list. -/
structure interval where
  _lo : Nat
  _hi : Nat
deriving DecidableEq, Repr

/-- Class `merCovering`: the private members. -/
structure merCovering where
  _intervals : List interval
  _width : Nat
  _pieces : Nat
deriving DecidableEq, Repr

namespace merCovering

/-- The constructor `merCovering(u32bit w)`. -/
def ctor (w : Nat) : merCovering :=
  { _intervals := [], _width := w, _pieces := 0 }

/-- Method `clear()`: frees every node, then zeroes the list and the piece count. -/
def clear (self : merCovering) : merCovering :=
  { self with _intervals := [], _pieces := 0 }

/-- Method `sumOfLengths()`: the loop `s += i->_hi - i->_lo` in `u32bit` arithmetic. -/
def sumOfLengths (self : merCovering) : Nat :=
  self._intervals.foldl (fun s i => (s + (i._hi + u32Mod - i._lo) % u32Mod) % u32Mod) 0

/-- Method `numberOfPieces()`. -/
def numberOfPieces (self : merCovering) : Nat :=
  self._pieces

/-- The `while (c)` loop of `addMer`, started with `c` at the head of the given
list. The result is the list from `c` on after the `return` that was taken;
`none` means the loop ran off the end (`c` became null) without returning. -/
def scanLoop (lo hi : Nat) : List interval → Option (List interval)
  | [] => none
  | c :: rest =>
    if c._lo ≤ lo ∧ hi ≤ c._hi then
      some (c :: rest)
    else if lo ≤ c._lo ∧ hi ≤ c._hi then
      some ({ c with _lo := lo } :: rest)
    else
      match rest with
      | n :: rest2 =>
        if lo ≤ c._hi then
          if hi < n._lo then
            some ({ c with _hi := hi } :: n :: rest2)
          else
            some ({ c with _hi := n._hi } :: rest2)
        else
          if hi < n._lo then
            some (c :: ⟨lo, hi⟩ :: n :: rest2)
          else
            (scanLoop lo hi (n :: rest2)).map (fun r => c :: r)
      | [] =>
        if lo ≤ c._hi then
          some [{ c with _hi := hi }]
        else
          some [c, ⟨lo, hi⟩]

/-- Method `addMer(lo)`. When the scan runs off the end the list is left as it
was (only `_pieces` has changed). -/
def addMer (self : merCovering) (lo : Nat) : merCovering :=
  let pieces := (self._pieces + 1) % u32Mod
  let hi := (lo + self._width) % u32Mod
  match self._intervals with
  | [] => { self with _pieces := pieces, _intervals := [⟨lo, hi⟩] }
  | first :: rest =>
    if hi < first._lo then
      { self with _pieces := pieces, _intervals := ⟨lo, hi⟩ :: first :: rest }
    else
      match scanLoop lo hi (first :: rest) with
      | some l => { self with _pieces := pieces, _intervals := l }
      | none => { self with _pieces := pieces }

/-- How a run of `merge` can fail to produce a list. -/
inductive Fault where
  /-- A write `L->_next = ...` through the tail pointer `L` while `L` is null. -/
  | nullDeref
  /-- The iteration budget of the model ran out (never the case for the budget
  that `merge` passes, see `merge_budget_suffices`). -/
  | fuel
deriving DecidableEq, Repr

/-- The loops `while (X) { L->_next = new interval(X->_lo, X->_hi, 0L); L = L->_next;
X = X->_next; }` of `merge`. The output list is `N`; the tail pointer `L` points
to the last node of `N` and is null exactly when `N` is empty (both start null
and are set together). -/
def zipDown : List interval → List interval → Except Fault (List interval)
  | N, [] => .ok N
  | N, x :: X =>
    if N.isEmpty then .error .nullDeref
    else zipDown (N ++ [⟨x._lo, x._hi⟩]) X

/-- One `if ((X) && (hi >= X->_lo)) { ... }` block of the absorbing loop: the new
`hi`, the new `X`, and whether the block ran. -/
def absorbHead (hi : Nat) : List interval → Nat × List interval × Bool
  | [] => (hi, [], false)
  | x :: X =>
    if hi ≥ x._lo then
      ((if hi < x._hi then x._hi else hi), X, true)
    else
      (hi, x :: X, false)

/-- The loop `while ((A || B) && (modified))` of `merge`: the final `hi`, `A`, `B`. -/
def absorbLoop : Nat → Nat → List interval → List interval → Bool →
    Except Fault (Nat × List interval × List interval)
  | 0, _, _, _, _ => .error .fuel
  | fuel + 1, hi, A, B, modified =>
    if (!A.isEmpty || !B.isEmpty) && modified then
      let (hi1, A1, m1) := absorbHead hi A
      let (hi2, B1, m2) := absorbHead hi1 B
      absorbLoop fuel hi2 A1 B1 (m1 || m2)
    else
      .ok (hi, A, B)

/-- The choice of the initial interval in the `if (A && B)` block of `merge`:
`lo`, `hi`, and the advanced `A` and `B`. -/
def seed (a : interval) (A : List interval) (b : interval) (B : List interval) :
    Nat × Nat × List interval × List interval :=
  if a._lo = b._lo then
    (a._lo, (if a._hi < b._hi then b._hi else a._hi), A, B)
  else if a._lo < b._lo then
    (a._lo, a._hi, A, b :: B)
  else
    (b._lo, b._hi, a :: A, B)

/-- The loop `while (A || B)` of `merge`, with the output list `N` built so far. -/
def mergeLoop : Nat → List interval → List interval → List interval →
    Except Fault (List interval)
  | 0, _, _, _ => .error .fuel
  | fuel + 1, A, B, N =>
    if A.isEmpty && B.isEmpty then .ok N
    else
      match (if B.isEmpty then (zipDown N A).map (fun N1 => (([] : List interval), N1))
             else .ok (A, N)) with
      | .error e => .error e
      | .ok (A1, N1) =>
        match (if A1.isEmpty then (zipDown N1 B).map (fun N2 => (([] : List interval), N2))
               else .ok (B, N1)) with
        | .error e => .error e
        | .ok (B1, N2) =>
          match A1, B1 with
          | a :: A2, b :: B2 =>
            match seed a A2 b B2 with
            | (lo, hi, A3, B3) =>
              match absorbLoop (A3.length + B3.length + 2) hi A3 B3 true with
              | .error e => .error e
              | .ok (hi2, A4, B4) => mergeLoop fuel A4 B4 (N2 ++ [⟨lo, hi2⟩])
          | _, _ => mergeLoop fuel A1 B1 N2

/-- Method `merge(I)`: a null `I` leaves the receiver as it is; otherwise the
merged list replaces the receiver's list and the piece counts are added. -/
def merge (self : merCovering) (I : Option merCovering) : Except Fault merCovering :=
  match I with
  | none => .ok self
  | some other =>
    match mergeLoop (self._intervals.length + other._intervals.length + 1)
        self._intervals other._intervals [] with
    | .error e => .error e
    | .ok N =>
      let p := (self._pieces + other._pieces) % u32Mod
      .ok { self.clear with _intervals := N, _pieces := p }

/-- The loop `while (i && j)` of `compare` and the two checks after it: `true`
when the method returns, `false` when it reaches an `exit(1)`. -/
def compareLoop : List interval → List interval → Bool
  | i :: is, j :: js =>
    if i._lo ≠ j._lo ∨ i._hi ≠ j._hi then false
    else compareLoop is js
  | _ :: _, [] => false
  | [], _ :: _ => false
  | [], [] => true

/-- Method `compare(B)` of the test build: `true` when it returns, `false` when
it prints an error and exits. -/
def compare (self B : merCovering) : Bool :=
  if self._pieces ≠ B._pieces then false
  else compareLoop self._intervals B._intervals

end merCovering

/-! ## The properties the claims speak about -/

/-- A coordinate `x` lies inside some stored interval: `lo ≤ x < hi`. -/
def covered (l : List interval) (x : Nat) : Prop :=
  ∃ i ∈ l, i._lo ≤ x ∧ x < i._hi

/-- The interval-list invariants: every interval has `lo < hi`, and every two
consecutive intervals `A`, `B` satisfy `A.hi < B.lo`. -/
def invariants : List interval → Prop
  | [] => True
  | [a] => a._lo < a._hi
  | a :: b :: l => a._lo < a._hi ∧ a._hi < b._lo ∧ invariants (b :: l)

/-- The invariants can be checked by running down the list. -/
def invariants.dec : (l : List interval) → Decidable (invariants l)
  | [] => isTrue trivial
  | [a] => inferInstanceAs (Decidable (a._lo < a._hi))
  | a :: b :: l =>
    have := invariants.dec (b :: l)
    inferInstanceAs (Decidable (a._lo < a._hi ∧ a._hi < b._lo ∧ invariants (b :: l)))

instance (l : List interval) : Decidable (invariants l) := invariants.dec l

instance (l : List interval) (x : Nat) : Decidable (covered l x) :=
  inferInstanceAs (Decidable (∃ i ∈ l, i._lo ≤ x ∧ x < i._hi))

/-- Every interval is at least `w` long. -/
def minLength (w : Nat) (l : List interval) : Prop :=
  ∀ i ∈ l, i._lo + w ≤ i._hi

instance (w : Nat) (l : List interval) : Decidable (minLength w l) :=
  inferInstanceAs (Decidable (∀ i ∈ l, i._lo + w ≤ i._hi))

/-- What every `addMer` call with width `w` maintains: the width is `w`, the list
satisfies the invariants and every interval is at least `w` long. -/
def pieceInvariant (w : Nat) (s : merCovering) : Prop :=
  s._width = w ∧ invariants s._intervals ∧ minLength w s._intervals

instance (w : Nat) (s : merCovering) : Decidable (pieceInvariant w s) :=
  inferInstanceAs
    (Decidable (s._width = w ∧ invariants s._intervals ∧ minLength w s._intervals))

/-- The sum of `hi - lo` over all intervals, as a natural number. -/
def totalLength (l : List interval) : Nat :=
  (l.map (fun i => i._hi - i._lo)).sum

/-- The finite set of the coordinates that lie in some interval of the list. -/
def coveredSet : List interval → Finset Nat
  | [] => ∅
  | i :: l => Finset.Ico i._lo i._hi ∪ coveredSet l

/-- The order used by the reference procedure: by `lo`. -/
def loLe (a b : interval) : Prop := a._lo ≤ b._lo

instance : DecidableRel loLe := fun a b => inferInstanceAs (Decidable (a._lo ≤ b._lo))

instance : IsTotal interval loLe := ⟨fun a b => Nat.le_total a._lo b._lo⟩

instance : IsTrans interval loLe := ⟨fun _ _ _ h1 h2 => Nat.le_trans h1 h2⟩

/-- Reference procedure, first half: all intervals sorted by `lo`. -/
def sortByLo (l : List interval) : List interval :=
  l.insertionSort loLe

/-- Reference procedure, second half: one sweep over the sorted intervals with
the current output interval `cur`; an interval whose `lo` is at most the current
`hi` is joined into `cur` (taking the larger `hi`), any other starts a new output
interval. -/
def sweep (cur : interval) : List interval → List interval
  | [] => [cur]
  | x :: xs =>
    if x._lo ≤ cur._hi then sweep ⟨cur._lo, max cur._hi x._hi⟩ xs
    else cur :: sweep x xs

/-- The reference procedure of the specification for merging two interval lists:
combine all intervals of `A` and `B`, sort them by `lo`, then sweep once. -/
def sortThenCoalesce (A B : List interval) : List interval :=
  match sortByLo (A ++ B) with
  | [] => []
  | x :: xs => sweep x xs

/-- The sets built from an empty `merCovering(w)` by `addMer` calls whose piece
does not wrap, and by merges (that return) of two sets built in this way. -/
inductive built (w : Nat) : merCovering → Prop
  | ctor : built w (merCovering.ctor w)
  | addMer (s : merCovering) (lo : Nat) :
      built w s → lo + w < u32Mod → built w (s.addMer lo)
  | merge (s t r : merCovering) :
      built w s → built w t → s.merge (some t) = .ok r → built w r

/-! ## Basic facts about the invariants -/

theorem invariants_nil : invariants [] := trivial

theorem invariants_single (a : interval) : invariants [a] ↔ a._lo < a._hi := Iff.rfl

theorem invariants_cons_cons (a b : interval) (l : List interval) :
    invariants (a :: b :: l) ↔
      a._lo < a._hi ∧ a._hi < b._lo ∧ invariants (b :: l) := Iff.rfl

theorem invariants_cons (a : interval) (l : List interval) :
    invariants (a :: l) ↔
      a._lo < a._hi ∧ (∀ h ∈ l.head?, a._hi < h._lo) ∧ invariants l := by
  cases l with
  | nil => simp [invariants_single, invariants_nil]
  | cons b l => rw [invariants_cons_cons]; simp

/-- The invariants, said with quantifiers: every interval has `lo < hi`, and the
relation `A.hi < B.lo` holds along the list. -/
theorem invariants_iff (l : List interval) :
    invariants l ↔
      (∀ i ∈ l, i._lo < i._hi) ∧ l.Chain' (fun (a b : interval) => a._hi < b._lo) := by
  induction l with
  | nil => simp [invariants_nil]
  | cons a l ih =>
    rw [invariants_cons, ih, List.chain'_cons', List.forall_mem_cons]
    tauto

theorem invariants.lt {l : List interval} (h : invariants l) :
    ∀ i ∈ l, i._lo < i._hi :=
  ((invariants_iff l).mp h).1

/-! ## addMer keeps the invariants -/

theorem head_bound_cons (b : Nat) (a : interval) (l : List interval) :
    (∀ h ∈ (a :: l).head?, b < h._lo) ↔ b < a._lo := by
  simp

/-- The scan of `addMer` on a non-empty list satisfying the invariants returns,
its result satisfies the invariants, and the head of the result does not start
below a bound that is below both the old head and the new piece. -/
theorem scanLoop_invariants (lo hi : Nat) (hlt : lo < hi) :
    ∀ l : List interval, l ≠ [] → invariants l →
      ∃ r, merCovering.scanLoop lo hi l = some r ∧ invariants r ∧
        ∀ b, (∀ h ∈ l.head?, b < h._lo) → b < lo → ∀ h ∈ r.head?, b < h._lo := by
  intro l
  induction l with
  | nil => intro h; exact absurd rfl h
  | cons c rest ih =>
    intro _ hinv
    cases rest with
    | nil =>
      rw [invariants_single] at hinv
      simp only [merCovering.scanLoop]
      split_ifs with h1 h2 h3
      · refine ⟨_, rfl, by rw [invariants_single]; exact hinv, ?_⟩
        intro b hb _; exact hb
      · refine ⟨_, rfl, by rw [invariants_single]; show lo < c._hi; omega, ?_⟩
        intro b _ hb; rw [head_bound_cons]; exact hb
      · refine ⟨_, rfl, by rw [invariants_single]; show c._lo < hi; omega, ?_⟩
        intro b hb _; rw [head_bound_cons] at hb ⊢; exact hb
      · refine ⟨_, rfl, ?_, ?_⟩
        · rw [invariants_cons_cons, invariants_single]
          refine ⟨hinv, ?_, hlt⟩
          show c._hi < lo
          omega
        · intro b hb _; rw [head_bound_cons] at hb ⊢; exact hb
    | cons n rest2 =>
      have hinv2 := hinv
      rw [invariants_cons_cons] at hinv2
      obtain ⟨hc, hcn, hn⟩ := hinv2
      simp only [merCovering.scanLoop]
      split_ifs with h1 h2 h3 h4 h5
      · refine ⟨_, rfl, hinv, ?_⟩
        intro b hb _; exact hb
      · refine ⟨_, rfl, ?_, ?_⟩
        · rw [invariants_cons_cons]
          refine ⟨?_, hcn, hn⟩
          show lo < c._hi
          omega
        · intro b _ hb; rw [head_bound_cons]; exact hb
      · refine ⟨_, rfl, ?_, ?_⟩
        · rw [invariants_cons_cons]
          refine ⟨?_, h4, hn⟩
          show c._lo < hi
          omega
        · intro b hb _; rw [head_bound_cons] at hb ⊢; exact hb
      · refine ⟨_, rfl, ?_, ?_⟩
        · rw [invariants_cons] at hn ⊢
          refine ⟨?_, hn.2.1, hn.2.2⟩
          show c._lo < n._hi
          omega
        · intro b hb _; rw [head_bound_cons] at hb ⊢; exact hb
      · refine ⟨_, rfl, ?_, ?_⟩
        · rw [invariants_cons_cons, invariants_cons_cons]
          refine ⟨hc, ?_, hlt, h5, hn⟩
          show c._hi < lo
          omega
        · intro b hb _; rw [head_bound_cons] at hb ⊢; exact hb
      · obtain ⟨r, hr, hrinv, hrhead⟩ := ih (by simp) hn
        refine ⟨c :: r, by simp [hr], ?_, ?_⟩
        · rw [invariants_cons]
          refine ⟨hc, ?_, hrinv⟩
          exact hrhead c._hi (by rw [head_bound_cons]; exact hcn) (by omega)
        · intro b hb _; rw [head_bound_cons] at hb ⊢; exact hb

theorem addMer_pieces (s : merCovering) (lo : Nat) :
    (s.addMer lo)._pieces = (s._pieces + 1) % u32Mod := by
  unfold merCovering.addMer
  cases s._intervals with
  | nil => rfl
  | cons first rest =>
    simp only
    split_ifs
    · rfl
    · cases merCovering.scanLoop lo ((lo + s._width) % u32Mod) (first :: rest) <;> rfl

theorem addMer_width (s : merCovering) (lo : Nat) :
    (s.addMer lo)._width = s._width := by
  unfold merCovering.addMer
  cases s._intervals with
  | nil => rfl
  | cons first rest =>
    simp only
    split_ifs
    · rfl
    · cases merCovering.scanLoop lo ((lo + s._width) % u32Mod) (first :: rest) <;> rfl

/-- The list after `addMer`, in terms of the scan, when nothing wraps. -/
theorem addMer_intervals (s : merCovering) (lo : Nat) (hw : lo + s._width < u32Mod) :
    (s.addMer lo)._intervals =
      match s._intervals with
      | [] => [⟨lo, lo + s._width⟩]
      | first :: rest =>
        if lo + s._width < first._lo then ⟨lo, lo + s._width⟩ :: first :: rest
        else (merCovering.scanLoop lo (lo + s._width) (first :: rest)).getD (first :: rest) := by
  unfold merCovering.addMer
  rw [Nat.mod_eq_of_lt hw]
  cases hl : s._intervals with
  | nil => rfl
  | cons first rest =>
    simp only
    split_ifs
    · rfl
    · cases hs : merCovering.scanLoop lo (lo + s._width) (first :: rest) with
      | none => simp [hl]
      | some r => simp

/-- Any list satisfying the invariants is again such a list after `addMer`. -/
theorem addMer_invariants_aux (s : merCovering) (lo : Nat) (hpos : 0 < s._width)
    (hinv : invariants s._intervals) (hw : lo + s._width < u32Mod) :
    invariants (s.addMer lo)._intervals := by
  rw [addMer_intervals s lo hw]
  cases hl : s._intervals with
  | nil =>
    simp only
    rw [invariants_single]
    show lo < lo + s._width
    omega
  | cons first rest =>
    rw [hl] at hinv
    simp only
    split_ifs with h1
    · rw [invariants_cons]
      refine ⟨?_, ?_, hinv⟩
      · show lo < lo + s._width
        omega
      · rw [head_bound_cons]; exact h1
    · obtain ⟨r, hr, hrinv, _⟩ :=
        scanLoop_invariants lo (lo + s._width) (by omega) (first :: rest) (by simp) hinv
      rw [hr]
      exact hrinv

/-! ## Order facts that follow from the invariants -/

/-- In a list satisfying the invariants every later interval starts after the
end of the head. -/
theorem invariants_head_hi_lt (a : interval) (l : List interval)
    (h : invariants (a :: l)) : ∀ i ∈ l, a._hi < i._lo := by
  induction l generalizing a with
  | nil => intro i hi; cases hi
  | cons b l ih =>
    rw [invariants_cons_cons] at h
    obtain ⟨_, hab, hb⟩ := h
    intro i hi
    rcases List.mem_cons.mp hi with rfl | hi
    · exact hab
    · have h1 := ih b hb i hi
      have h2 := hb.lt b (List.mem_cons_self _ _)
      omega

theorem invariants_head_lo_le (a : interval) (l : List interval)
    (h : invariants (a :: l)) : ∀ i ∈ a :: l, a._lo ≤ i._lo := by
  intro i hi
  rcases List.mem_cons.mp hi with rfl | hi
  · exact Nat.le_refl _
  · have h1 := invariants_head_hi_lt a l h i hi
    have h2 := h.lt a (List.mem_cons_self _ _)
    omega

theorem invariants_tail (a : interval) (l : List interval)
    (h : invariants (a :: l)) : invariants l :=
  ((invariants_cons a l).mp h).2.2

/-! ## A piece inside a stored interval -/

/-- When some stored interval contains the piece, the scan returns the list as
it was. -/
theorem scanLoop_contained (lo hi : Nat) (hle : lo ≤ hi) :
    ∀ l : List interval, invariants l → (∃ c ∈ l, c._lo ≤ lo ∧ hi ≤ c._hi) →
      merCovering.scanLoop lo hi l = some l := by
  intro l
  induction l with
  | nil => rintro _ ⟨c, hc, _⟩; cases hc
  | cons c rest ih =>
    intro hinv hex
    by_cases h1 : c._lo ≤ lo ∧ hi ≤ c._hi
    · cases rest <;> simp [merCovering.scanLoop, h1]
    · obtain ⟨d, hd, hdlo, hdhi⟩ := hex
      rcases List.mem_cons.mp hd with rfl | hd
      · exact absurd ⟨hdlo, hdhi⟩ h1
      · have hcd := invariants_head_hi_lt c rest hinv d hd
        have hc := hinv.lt c (List.mem_cons_self _ _)
        cases rest with
        | nil => cases hd
        | cons n rest2 =>
          have hn := invariants_head_lo_le n rest2 (invariants_tail c _ hinv) d hd
          have hrec := ih (invariants_tail c _ hinv) ⟨d, hd, hdlo, hdhi⟩
          have h2 : ¬ (lo ≤ c._lo ∧ hi ≤ c._hi) := by omega
          have h3 : ¬ (lo ≤ c._hi) := by omega
          have h4 : ¬ (hi < n._lo) := by omega
          simp only [merCovering.scanLoop, h1, h2, h3, h4, if_false]
          rw [hrec]
          rfl

/-! ## The piece count -/

theorem foldl_addMer_pieces (ps : List Nat) :
    ∀ s : merCovering, (ps.foldl merCovering.addMer s)._pieces % u32Mod
      = (s._pieces + ps.length) % u32Mod := by
  induction ps with
  | nil => intro s; rfl
  | cons p ps ih =>
    intro s
    rw [List.foldl_cons, ih, addMer_pieces, List.length_cons]
    unfold u32Mod
    omega

theorem foldl_addMer_pieces_lt (ps : List Nat) :
    ∀ s : merCovering, s._pieces < u32Mod →
      (ps.foldl merCovering.addMer s)._pieces < u32Mod := by
  induction ps with
  | nil => intro s h; exact h
  | cons p ps ih =>
    intro s _
    rw [List.foldl_cons]
    apply ih
    rw [addMer_pieces]
    exact Nat.mod_lt _ (by unfold u32Mod; omega)

/-! ## Coverage of the list after addMer -/

theorem covered_nil (x : Nat) : ¬ covered [] x := by
  simp [covered]

theorem covered_cons (a : interval) (l : List interval) (x : Nat) :
    covered (a :: l) x ↔ (a._lo ≤ x ∧ x < a._hi) ∨ covered l x := by
  simp [covered]

theorem covered_append (l1 l2 : List interval) (x : Nat) :
    covered (l1 ++ l2) x ↔ covered l1 x ∨ covered l2 x := by
  simp only [covered, List.mem_append]
  constructor
  · rintro ⟨i, hi | hi, h⟩
    · exact Or.inl ⟨i, hi, h⟩
    · exact Or.inr ⟨i, hi, h⟩
  · rintro (⟨i, hi, h⟩ | ⟨i, hi, h⟩)
    · exact ⟨i, Or.inl hi, h⟩
    · exact ⟨i, Or.inr hi, h⟩

theorem minLength_cons (w : Nat) (a : interval) (l : List interval) :
    minLength w (a :: l) ↔ a._lo + w ≤ a._hi ∧ minLength w l := by
  simp [minLength]

theorem minLength_nil (w : Nat) : minLength w [] := by
  simp [minLength]

/-- On a list of intervals that are all at least `w` long and whose head does not
start after the end of the piece, the scan adds exactly the piece to the covered
coordinates, and every interval is still at least `w` long. -/
theorem scanLoop_covered (lo w : Nat) (hw : 0 < w) :
    ∀ l : List interval, invariants l → minLength w l →
      (∀ h ∈ l.head?, h._lo ≤ lo + w) →
      ∀ r, merCovering.scanLoop lo (lo + w) l = some r →
        (∀ x, covered r x ↔ covered l x ∨ (lo ≤ x ∧ x < lo + w)) ∧ minLength w r := by
  intro l
  induction l with
  | nil => intro _ _ _ r hr; simp [merCovering.scanLoop] at hr
  | cons c rest ih =>
    intro hinv hmin hhead r hr
    have hc := hinv.lt c (List.mem_cons_self _ _)
    have hcw := hmin c (List.mem_cons_self _ _)
    have hh : c._lo ≤ lo + w := hhead c rfl
    rw [minLength_cons] at hmin
    cases rest with
    | nil =>
      simp only [merCovering.scanLoop] at hr
      split_ifs at hr with h1 h2 h3 <;> cases hr
      · refine ⟨fun x => ?_, by rw [minLength_cons]; exact hmin⟩
        simp only [covered_cons, covered_nil, or_false]
        omega
      · refine ⟨fun x => ?_, by rw [minLength_cons]; exact ⟨by show lo + w ≤ c._hi; omega, hmin.2⟩⟩
        simp only [covered_cons, covered_nil, or_false]
        omega
      · refine ⟨fun x => ?_, by rw [minLength_cons]; exact ⟨by show c._lo + w ≤ lo + w; omega, hmin.2⟩⟩
        simp only [covered_cons, covered_nil, or_false]
        omega
      · refine ⟨fun x => ?_, ?_⟩
        · simp only [covered_cons, covered_nil, or_false]
        · rw [minLength_cons, minLength_cons]
          exact ⟨hmin.1, Nat.le_refl _, hmin.2⟩
    | cons n rest2 =>
      have hinv2 := hinv
      rw [invariants_cons_cons] at hinv2
      obtain ⟨_, hcn, hn⟩ := hinv2
      have hnw := hmin.2 n (List.mem_cons_self _ _)
      have hmin2 := hmin.2
      rw [minLength_cons] at hmin2
      simp only [merCovering.scanLoop] at hr
      split_ifs at hr with h1 h2 h3 h4 h5
      · cases hr
        refine ⟨fun x => ?_, by rw [minLength_cons]; exact hmin⟩
        simp only [covered_cons]
        by_cases hP : covered rest2 x <;> simp only [hP, or_true, or_false, true_or, iff_true]
        omega
      · cases hr
        refine ⟨fun x => ?_, by rw [minLength_cons]; exact ⟨by show lo + w ≤ c._hi; omega, hmin.2⟩⟩
        simp only [covered_cons]
        by_cases hP : covered rest2 x <;> simp only [hP, or_true, or_false, true_or, iff_true]
        omega
      · cases hr
        refine ⟨fun x => ?_, by rw [minLength_cons]; exact ⟨by show c._lo + w ≤ lo + w; omega, hmin.2⟩⟩
        simp only [covered_cons]
        by_cases hP : covered rest2 x <;> simp only [hP, or_true, or_false, true_or, iff_true]
        omega
      · cases hr
        refine ⟨fun x => ?_, by rw [minLength_cons]; exact ⟨by show c._lo + w ≤ n._hi; omega, hmin2.2⟩⟩
        simp only [covered_cons]
        by_cases hP : covered rest2 x <;> simp only [hP, or_true, or_false, true_or, iff_true]
        omega
      · cases hr
        refine ⟨fun x => ?_, ?_⟩
        · simp only [covered_cons]
          by_cases hP : covered rest2 x <;> simp only [hP, or_true, or_false, true_or, iff_true]
          omega
        · rw [minLength_cons, minLength_cons]
          exact ⟨hmin.1, Nat.le_refl _, hmin.2⟩
      · cases hs : merCovering.scanLoop lo (lo + w) (n :: rest2) with
        | none => rw [hs] at hr; cases hr
        | some r2 =>
          rw [hs] at hr
          cases hr
          obtain ⟨hcov, hm⟩ := ih hn hmin.2 (by rw [List.head?_cons]; intro h hh2; cases hh2; omega) r2 hs
          refine ⟨fun x => ?_, by rw [minLength_cons]; exact ⟨hmin.1, hm⟩⟩
          rw [covered_cons, hcov, covered_cons c]
          tauto

/-- One `addMer` on a list of intervals that are all at least `_width` long adds
exactly the piece to the covered coordinates and keeps that minimum length. -/
theorem addMer_covered (s : merCovering) (lo : Nat) (hpos : 0 < s._width)
    (hinv : invariants s._intervals) (hmin : minLength s._width s._intervals)
    (hw : lo + s._width < u32Mod) :
    (∀ x, covered (s.addMer lo)._intervals x ↔
        covered s._intervals x ∨ (lo ≤ x ∧ x < lo + s._width)) ∧
      minLength s._width (s.addMer lo)._intervals := by
  rw [addMer_intervals s lo hw]
  cases hl : s._intervals with
  | nil =>
    simp only
    refine ⟨fun x => ?_, ?_⟩
    · simp only [covered_cons, covered_nil, or_false, false_or]
    · rw [minLength_cons]; exact ⟨Nat.le_refl _, minLength_nil _⟩
  | cons first rest =>
    rw [hl] at hinv hmin
    simp only
    split_ifs with h1
    · refine ⟨fun x => ?_, ?_⟩
      · rw [covered_cons]; tauto
      · rw [minLength_cons]; exact ⟨Nat.le_refl _, hmin⟩
    · obtain ⟨r, hr, _, _⟩ :=
        scanLoop_invariants lo (lo + s._width) (by omega) (first :: rest) (by simp) hinv
      rw [hr]
      exact scanLoop_covered lo s._width hpos (first :: rest) hinv hmin
        (by intro h hh; cases hh; omega) r hr

theorem pieceInvariant_ctor (w : Nat) : pieceInvariant w (merCovering.ctor w) :=
  ⟨rfl, invariants_nil, minLength_nil w⟩

theorem pieceInvariant_addMer (w : Nat) (hpos : 0 < w) (s : merCovering) (lo : Nat)
    (hs : pieceInvariant w s) (hw : lo + w < u32Mod) : pieceInvariant w (s.addMer lo) := by
  obtain ⟨rfl, hinv, hmin⟩ := hs
  exact ⟨addMer_width s lo, addMer_invariants_aux s lo hpos hinv hw,
    (addMer_covered s lo hpos hinv hmin hw).2⟩

theorem foldl_addMer_pieceInvariant (w : Nat) (hpos : 0 < w) (ps : List Nat) :
    ∀ s : merCovering, pieceInvariant w s → (∀ p ∈ ps, p + w < u32Mod) →
      pieceInvariant w (ps.foldl merCovering.addMer s) := by
  induction ps with
  | nil => intro s hs _; exact hs
  | cons p ps ih =>
    intro s hs hps
    rw [List.foldl_cons]
    exact ih _ (pieceInvariant_addMer w hpos s p hs (hps p (List.mem_cons_self _ _)))
      (fun q hq => hps q (List.mem_cons_of_mem _ hq))

theorem foldl_addMer_covered (w : Nat) (hpos : 0 < w) (ps : List Nat) :
    ∀ s : merCovering, pieceInvariant w s → (∀ p ∈ ps, p + w < u32Mod) →
      ∀ x, covered (ps.foldl merCovering.addMer s)._intervals x ↔
        covered s._intervals x ∨ ∃ p ∈ ps, p ≤ x ∧ x < p + w := by
  induction ps with
  | nil => intro s _ _ x; simp
  | cons p ps ih =>
    intro s hs hps x
    have hp := hps p (List.mem_cons_self _ _)
    rw [List.foldl_cons,
      ih _ (pieceInvariant_addMer w hpos s p hs hp) (fun q hq => hps q (List.mem_cons_of_mem _ hq))]
    obtain ⟨rfl, hinv, hmin⟩ := hs
    rw [(addMer_covered s p hpos hinv hmin hp).1 x]
    simp only [List.exists_mem_cons_iff] 
    tauto

/-! ## The loops of merge -/

theorem zipDown_nonempty (X : List interval) :
    ∀ N : List interval, N ≠ [] → merCovering.zipDown N X = .ok (N ++ X) := by
  induction X with
  | nil => intro N _; simp [merCovering.zipDown]
  | cons x X ih =>
    intro N hN
    cases N with
    | nil => exact absurd rfl hN
    | cons n N =>
      simp only [merCovering.zipDown, List.isEmpty_cons, Bool.false_eq_true, if_false]
      rw [ih _ (by simp)]
      simp

theorem invariants_append (N X : List interval) :
    invariants (N ++ X) ↔
      invariants N ∧ invariants X ∧ ∀ l ∈ N.getLast?, ∀ h ∈ X.head?, l._hi < h._lo := by
  simp only [invariants_iff, List.chain'_append, List.mem_append]
  constructor
  · rintro ⟨h1, h2, h3, h4⟩
    exact ⟨⟨fun i hi => h1 i (Or.inl hi), h2⟩, ⟨fun i hi => h1 i (Or.inr hi), h3⟩, h4⟩
  · rintro ⟨⟨h1, h2⟩, ⟨h3, h4⟩, h5⟩
    exact ⟨fun i hi => hi.elim (h1 i) (h3 i), h2, h4, h5⟩

theorem invariants_suffix (X Y : List interval) (hs : X <:+ Y) (h : invariants Y) :
    invariants X :=
  (invariants_iff X).mpr
    ⟨fun i hi => h.lt i (hs.subset hi), ((invariants_iff Y).mp h).2.suffix hs⟩

/-- What one block of the absorbing loop does. -/
theorem absorbHead_spec (s hi : Nat) (X : List interval) (hX : ∀ i ∈ X, s ≤ i._lo) :
    (merCovering.absorbHead hi X).2.1 <:+ X ∧
    (merCovering.absorbHead hi X).2.1.length + (merCovering.absorbHead hi X).2.2.toNat
      = X.length ∧
    hi ≤ (merCovering.absorbHead hi X).1 ∧
    ((merCovering.absorbHead hi X).2.2 = false →
      (merCovering.absorbHead hi X).2.1 = X ∧ (merCovering.absorbHead hi X).1 = hi ∧
        ∀ h ∈ X.head?, hi < h._lo) ∧
    ∀ x, ((s ≤ x ∧ x < (merCovering.absorbHead hi X).1) ∨
          covered (merCovering.absorbHead hi X).2.1 x) ↔
        ((s ≤ x ∧ x < hi) ∨ covered X x) := by
  cases X with
  | nil => simp [merCovering.absorbHead]
  | cons a X =>
    have ha := hX a (List.mem_cons_self _ _)
    by_cases h : hi ≥ a._lo
    · simp only [merCovering.absorbHead, h, if_true]
      refine ⟨List.suffix_cons a X, by simp, by split_ifs <;> omega, by simp, fun x => ?_⟩
      rw [covered_cons]
      by_cases hP : covered X x
      · simp only [hP, or_true]
      · simp only [hP, or_false]
        split_ifs <;> omega
    · have e : merCovering.absorbHead hi (a :: X) = (hi, a :: X, false) := by
        simp only [merCovering.absorbHead, h, if_false]
      rw [e]
      refine ⟨List.suffix_refl _, by simp, Nat.le_refl _, ?_, fun x => Iff.rfl⟩
      intro _
      refine ⟨rfl, rfl, ?_⟩
      rw [head_bound_cons]
      omega

theorem or_chain_two (P0 P1 P2 A A1 B B1 : Prop) (hA : P1 ∨ A1 ↔ P0 ∨ A)
    (hB : P2 ∨ B1 ↔ P1 ∨ B) : (P2 ∨ A1 ∨ B1) ↔ (P0 ∨ A ∨ B) := by
  tauto

/-- The absorbing loop returns within its budget; it leaves suffixes of `A` and
`B` whose heads start after the final `hi`, and the coordinates covered by the
grown interval and the two suffixes are those covered before. -/
theorem absorbLoop_spec (s : Nat) :
    ∀ (fuel hi : Nat) (A B : List interval) (m : Bool),
      A.length + B.length + 1 + m.toNat ≤ fuel →
      (∀ i ∈ A, s ≤ i._lo) → (∀ i ∈ B, s ≤ i._lo) →
      (m = false → (∀ h ∈ A.head?, hi < h._lo) ∧ (∀ h ∈ B.head?, hi < h._lo)) →
      ∃ hi2 A2 B2, merCovering.absorbLoop fuel hi A B m = .ok (hi2, A2, B2) ∧
        A2 <:+ A ∧ B2 <:+ B ∧ hi ≤ hi2 ∧
        (∀ h ∈ A2.head?, hi2 < h._lo) ∧ (∀ h ∈ B2.head?, hi2 < h._lo) ∧
        ∀ x, ((s ≤ x ∧ x < hi2) ∨ covered A2 x ∨ covered B2 x) ↔
          ((s ≤ x ∧ x < hi) ∨ covered A x ∨ covered B x) := by
  intro fuel
  induction fuel with
  | zero => intro hi A B m hf; omega
  | succ fuel ih =>
    intro hi A B m hf hA hB hm
    by_cases hc : ((!A.isEmpty || !B.isEmpty) && m) = true
    · have hmt : m = true := by
        cases m
        · simp at hc
        · rfl
      subst hmt
      have sA := absorbHead_spec s hi A hA
      rcases hA1 : merCovering.absorbHead hi A with ⟨hi1, A1, m1⟩
      rw [hA1] at sA
      simp only at sA
      obtain ⟨sufA, lenA, leA, unchA, covA⟩ := sA
      have sB := absorbHead_spec s hi1 B hB
      rcases hB1 : merCovering.absorbHead hi1 B with ⟨hi2, B1, m2⟩
      rw [hB1] at sB
      simp only at sB
      obtain ⟨sufB, lenB, leB, unchB, covB⟩ := sB
      have hf2 : A1.length + B1.length + 1 + (m1 || m2).toNat ≤ fuel := by
        simp only [Bool.toNat_true] at hf
        cases m1 <;> cases m2 <;> simp at lenA lenB ⊢ <;> omega
      have hm2 : (m1 || m2) = false →
          (∀ h ∈ A1.head?, hi2 < h._lo) ∧ (∀ h ∈ B1.head?, hi2 < h._lo) := by
        intro hmm
        have e1 : m1 = false := by
          cases m1 with
          | false => rfl
          | true => simp at hmm
        have e2 : m2 = false := by
          cases m2 with
          | false => rfl
          | true => simp at hmm
        obtain ⟨a1, a2, a3⟩ := unchA e1
        obtain ⟨b1, b2, b3⟩ := unchB e2
        subst a1 a2 b1 b2
        exact ⟨a3, b3⟩
      obtain ⟨hi3, A3, B3, hrun, sufA3, sufB3, le3, hdA, hdB, cov3⟩ :=
        ih hi2 A1 B1 (m1 || m2) hf2 (fun i hi => hA i (sufA.subset hi))
          (fun i hi => hB i (sufB.subset hi)) hm2
      refine ⟨hi3, A3, B3, ?_, sufA3.trans sufA, sufB3.trans sufB, by omega, hdA, hdB, ?_⟩
      · rw [merCovering.absorbLoop, if_pos hc, hA1]
        simp only
        rw [hB1]
        exact hrun
      · intro x
        exact (cov3 x).trans (or_chain_two _ _ _ _ _ _ _ (covA x) (covB x))
    · refine ⟨hi, A, B, ?_, List.suffix_refl _, List.suffix_refl _, Nat.le_refl _, ?_, ?_,
        fun x => Iff.rfl⟩
      · rw [merCovering.absorbLoop, if_neg hc]
      · cases m
        · exact (hm rfl).1
        · cases A with
          | nil => intro h hh; cases hh
          | cons a A => simp at hc
      · cases m
        · exact (hm rfl).2
        · cases B with
          | nil => intro h hh; cases hh
          | cons b B => simp at hc

/-! ### Unfolding the outer loop of merge by the shape of the two lists -/

theorem zipDown_nil (N : List interval) : merCovering.zipDown N [] = .ok N := by
  cases N <;> rfl

theorem mergeLoop_nil_nil (fuel : Nat) (N : List interval) :
    merCovering.mergeLoop (fuel + 1) [] [] N = .ok N := rfl

theorem mergeLoop_cons_nil (fuel : Nat) (a : interval) (A N : List interval) :
    merCovering.mergeLoop (fuel + 2) (a :: A) [] N = merCovering.zipDown N (a :: A) := by
  cases h : merCovering.zipDown N (a :: A) with
  | error e => simp [merCovering.mergeLoop, h, Except.map]
  | ok N1 => simp [merCovering.mergeLoop, h, Except.map, zipDown_nil]

theorem mergeLoop_nil_cons (fuel : Nat) (b : interval) (B N : List interval) :
    merCovering.mergeLoop (fuel + 2) [] (b :: B) N = merCovering.zipDown N (b :: B) := by
  cases h : merCovering.zipDown N (b :: B) with
  | error e => simp [merCovering.mergeLoop, h, Except.map]
  | ok N1 => simp [merCovering.mergeLoop, h, Except.map]

theorem mergeLoop_cons_cons (fuel : Nat) (a : interval) (A : List interval)
    (b : interval) (B N : List interval) :
    merCovering.mergeLoop (fuel + 1) (a :: A) (b :: B) N =
      match merCovering.seed a A b B with
      | (lo, hi, A3, B3) =>
        match merCovering.absorbLoop (A3.length + B3.length + 2) hi A3 B3 true with
        | .error e => .error e
        | .ok (hi2, A4, B4) => merCovering.mergeLoop fuel A4 B4 (N ++ [⟨lo, hi2⟩]) := rfl

/-- The initial interval of one round of merge. -/
theorem seed_spec (a : interval) (A : List interval) (b : interval) (B : List interval)
    (ha : a._lo < a._hi) (hb : b._lo < b._hi) :
    ∃ lo hi A3 B3, merCovering.seed a A b B = (lo, hi, A3, B3) ∧
      lo ≤ a._lo ∧ lo ≤ b._lo ∧ lo < hi ∧
      A3 <:+ a :: A ∧ B3 <:+ b :: B ∧ A3.length + B3.length ≤ A.length + B.length + 1 ∧
      (∀ x, ((lo ≤ x ∧ x < hi) ∨ covered A3 x ∨ covered B3 x) ↔
        (covered (a :: A) x ∨ covered (b :: B) x)) ∧
      ((lo = a._lo ∧ a._hi ≤ hi) ∨ (lo = b._lo ∧ b._hi ≤ hi)) := by
  unfold merCovering.seed
  by_cases h1 : a._lo = b._lo
  · rw [if_pos h1]
    refine ⟨_, _, _, _, rfl, Nat.le_refl _, by omega, by split_ifs <;> omega,
      List.suffix_cons _ _, List.suffix_cons _ _, by omega, fun x => ?_,
      Or.inl ⟨rfl, by split_ifs <;> omega⟩⟩
    simp only [covered_cons]
    by_cases p1 : covered A x <;> by_cases p2 : covered B x <;>
      simp only [p1, p2, or_true, or_false, true_or]
    split_ifs <;> omega
  · rw [if_neg h1]
    by_cases h2 : a._lo < b._lo
    · rw [if_pos h2]
      refine ⟨_, _, _, _, rfl, Nat.le_refl _, by omega, ha,
        List.suffix_cons _ _, List.suffix_refl _, by simp; omega, fun x => ?_,
        Or.inl ⟨rfl, Nat.le_refl _⟩⟩
      simp only [covered_cons]
      tauto
    · rw [if_neg h2]
      refine ⟨_, _, _, _, rfl, by omega, Nat.le_refl _, hb,
        List.suffix_refl _, List.suffix_cons _ _, by simp; omega, fun x => ?_,
        Or.inr ⟨rfl, Nat.le_refl _⟩⟩
      simp only [covered_cons]
      tauto

theorem or_chain_seed (PN P2 P1 A4 B4 A3 B3 A B R : Prop)
    (hR : R ↔ (PN ∨ P2) ∨ A4 ∨ B4) (h2 : P2 ∨ A4 ∨ B4 ↔ P1 ∨ A3 ∨ B3)
    (h1 : P1 ∨ A3 ∨ B3 ↔ A ∨ B) : R ↔ PN ∨ A ∨ B := by
  rw [hR, or_assoc, h2, h1]

/-- The outer loop of merge, started with an output list `N` that lies wholly
before both `A` and `B`, returns within its budget unless it has to write
through a null tail pointer (`N` empty and exactly one of `A`, `B` empty). The
result satisfies the invariants, covers what `N`, `A` and `B` cover, and each of
its intervals is one of `N` or begins where an input interval begins and ends
no earlier than that one. -/
theorem mergeLoop_spec :
    ∀ (fuel : Nat) (A B N : List interval),
      A.length + B.length + 1 ≤ fuel →
      invariants (N ++ A) → invariants (N ++ B) →
      (N ≠ [] ∨ (A ≠ [] ∧ B ≠ []) ∨ (A = [] ∧ B = [])) →
      ∃ R, merCovering.mergeLoop fuel A B N = .ok R ∧ invariants R ∧
        (∀ x, covered R x ↔ covered N x ∨ covered A x ∨ covered B x) ∧
        (∀ r ∈ R, r ∈ N ∨ ∃ i, (i ∈ A ∨ i ∈ B) ∧ r._lo = i._lo ∧ i._hi ≤ r._hi) := by
  intro fuel
  induction fuel with
  | zero => intro A B N hf; omega
  | succ fuel ih =>
    intro A B N hf hNA hNB hne
    cases A with
    | nil =>
      cases B with
      | nil =>
        refine ⟨N, mergeLoop_nil_nil fuel N, by simpa using hNA, fun x => ?_, fun r hr => Or.inl hr⟩
        simp [covered_nil]
      | cons b B =>
        have hN : N ≠ [] := by
          rcases hne with h | h | h
          · exact h
          · exact absurd rfl h.1
          · cases h.2
        obtain ⟨f, rfl⟩ : ∃ f, fuel = f + 1 := ⟨fuel - 1, by simp at hf; omega⟩
        refine ⟨N ++ b :: B, ?_, hNB, fun x => ?_, fun r hr => ?_⟩
        · rw [mergeLoop_nil_cons, zipDown_nonempty _ _ hN]
        · rw [covered_append]; simp [covered_nil]
        · rcases List.mem_append.mp hr with h | h
          · exact Or.inl h
          · exact Or.inr ⟨r, Or.inr h, rfl, Nat.le_refl _⟩
    | cons a A =>
      cases B with
      | nil =>
        have hN : N ≠ [] := by
          rcases hne with h | h | h
          · exact h
          · exact absurd rfl h.2
          · cases h.1
        obtain ⟨f, rfl⟩ : ∃ f, fuel = f + 1 := ⟨fuel - 1, by simp at hf; omega⟩
        refine ⟨N ++ a :: A, ?_, hNA, fun x => ?_, fun r hr => ?_⟩
        · rw [mergeLoop_cons_nil, zipDown_nonempty _ _ hN]
        · rw [covered_append]; simp [covered_nil]
        · rcases List.mem_append.mp hr with h | h
          · exact Or.inl h
          · exact Or.inr ⟨r, Or.inl h, rfl, Nat.le_refl _⟩
      | cons b B =>
        obtain ⟨iN, ia, lastA⟩ := (invariants_append _ _).mp hNA
        obtain ⟨_, ib, lastB⟩ := (invariants_append _ _).mp hNB
        obtain ⟨lo, hi, A3, B3, hseed, h1, h2, h3, sA, sB, hlen, hcov, hwit⟩ :=
          seed_spec a A b B (ia.lt a (List.mem_cons_self _ _)) (ib.lt b (List.mem_cons_self _ _))
        have hA3 : ∀ i ∈ A3, lo ≤ i._lo := fun i hi =>
          Nat.le_trans h1 (invariants_head_lo_le a A ia i (sA.subset hi))
        have hB3 : ∀ i ∈ B3, lo ≤ i._lo := fun i hi =>
          Nat.le_trans h2 (invariants_head_lo_le b B ib i (sB.subset hi))
        obtain ⟨hi2, A4, B4, hrun, sA4, sB4, hle, hdA, hdB, hcov2⟩ :=
          absorbLoop_spec lo (A3.length + B3.length + 2) hi A3 B3 true (by simp) hA3 hB3
            (by simp)
        have hlast : ∀ l ∈ N.getLast?, l._hi < lo := by
          intro l hl
          have e1 := lastA l hl a rfl
          have e2 := lastB l hl b rfl
          rcases hwit with h | h <;> omega
        have inv1 : invariants ((N ++ [⟨lo, hi2⟩]) ++ A4) := by
          rw [List.append_assoc, invariants_append]
          refine ⟨iN, ?_, ?_⟩
          · rw [List.singleton_append, invariants_cons]
            exact ⟨by show lo < hi2; omega, hdA, invariants_suffix _ _ (sA4.trans sA) ia⟩
          · intro l hl h hh
            cases hh
            exact hlast l hl
        have inv2 : invariants ((N ++ [⟨lo, hi2⟩]) ++ B4) := by
          rw [List.append_assoc, invariants_append]
          refine ⟨iN, ?_, ?_⟩
          · rw [List.singleton_append, invariants_cons]
            exact ⟨by show lo < hi2; omega, hdB, invariants_suffix _ _ (sB4.trans sB) ib⟩
          · intro l hl h hh
            cases hh
            exact hlast l hl
        have hf2 : A4.length + B4.length + 1 ≤ fuel := by
          have e1 := sA4.length_le
          have e2 := sB4.length_le
          simp only [List.length_cons] at hf
          omega
        obtain ⟨R, hR, hRinv, hRcov, hRmem⟩ :=
          ih A4 B4 (N ++ [⟨lo, hi2⟩]) hf2 inv1 inv2 (Or.inl (by simp))
        refine ⟨R, ?_, hRinv, fun x => ?_, fun r hr => ?_⟩
        · rw [mergeLoop_cons_cons, hseed]
          simp only
          rw [hrun]
          exact hR
        · refine or_chain_seed _ (lo ≤ x ∧ x < hi2) _ _ _ _ _ _ _ _ ?_ (hcov2 x) (hcov x)
          rw [hRcov x, covered_append, covered_cons]
          simp [covered_nil]
        · rcases hRmem r hr with h | ⟨i, hi, e1, e2⟩
          · rcases List.mem_append.mp h with h | h
            · exact Or.inl h
            · rw [List.mem_singleton] at h
              subst h
              rcases hwit with ⟨w1, w2⟩ | ⟨w1, w2⟩
              · exact Or.inr ⟨a, Or.inl (List.mem_cons_self _ _), w1, by show a._hi ≤ hi2; omega⟩
              · exact Or.inr ⟨b, Or.inr (List.mem_cons_self _ _), w1, by show b._hi ≤ hi2; omega⟩
          · rcases hi with hi | hi
            · exact Or.inr ⟨i, Or.inl ((sA4.trans sA).subset hi), e1, e2⟩
            · exact Or.inr ⟨i, Or.inr ((sB4.trans sB).subset hi), e1, e2⟩

/-- Merging two non-empty lists that satisfy the invariants returns a set whose
list satisfies the invariants and covers what the two lists cover; the piece
counts are added as `u32bit` values and the width is the receiver's. -/
theorem merge_spec (A B : merCovering) (hA : invariants A._intervals)
    (hB : invariants B._intervals) (hAne : A._intervals ≠ []) (hBne : B._intervals ≠ []) :
    ∃ R, A.merge (some B) = .ok R ∧ invariants R._intervals ∧
      (∀ x, covered R._intervals x ↔ covered A._intervals x ∨ covered B._intervals x) ∧
      (∀ r ∈ R._intervals, ∃ i, (i ∈ A._intervals ∨ i ∈ B._intervals) ∧
        r._lo = i._lo ∧ i._hi ≤ r._hi) ∧
      R._pieces = (A._pieces + B._pieces) % u32Mod ∧ R._width = A._width := by
  obtain ⟨N, hN, hNinv, hNcov, hNmem⟩ :=
    mergeLoop_spec (A._intervals.length + B._intervals.length + 1) A._intervals B._intervals []
      (Nat.le_refl _) (by simpa using hA) (by simpa using hB) (Or.inr (Or.inl ⟨hAne, hBne⟩))
  refine ⟨{ A.clear with _intervals := N, _pieces := (A._pieces + B._pieces) % u32Mod },
    ?_, hNinv, fun x => ?_, fun r hr => ?_, rfl, rfl⟩
  · simp only [merCovering.merge, hN]
  · rw [hNcov x]; simp [covered_nil]
  · rcases hNmem r hr with h | h
    · cases h
    · exact h

/-! ## The budget of the model is never the reason for a failure -/

theorem zipDown_ne_fuel (X : List interval) :
    ∀ N : List interval, merCovering.zipDown N X ≠ .error .fuel := by
  intro N
  cases X with
  | nil => rw [zipDown_nil]; intro h; cases h
  | cons x X =>
    cases N with
    | nil => simp [merCovering.zipDown]
    | cons n N => rw [zipDown_nonempty _ _ (by simp)]; intro h; cases h

theorem seed_length (a : interval) (A : List interval) (b : interval) (B : List interval) :
    (merCovering.seed a A b B).2.2.1.length + (merCovering.seed a A b B).2.2.2.length
      ≤ A.length + B.length + 1 := by
  unfold merCovering.seed
  split_ifs <;> simp <;> omega

theorem mergeLoop_ne_fuel :
    ∀ (fuel : Nat) (A B N : List interval), A.length + B.length + 1 ≤ fuel →
      merCovering.mergeLoop fuel A B N ≠ .error .fuel := by
  intro fuel
  induction fuel with
  | zero => intro A B N hf; omega
  | succ fuel ih =>
    intro A B N hf
    cases A with
    | nil =>
      cases B with
      | nil => rw [mergeLoop_nil_nil]; intro h; cases h
      | cons b B =>
        obtain ⟨f, rfl⟩ : ∃ f, fuel = f + 1 := ⟨fuel - 1, by simp at hf; omega⟩
        rw [mergeLoop_nil_cons]
        exact zipDown_ne_fuel _ _
    | cons a A =>
      cases B with
      | nil =>
        obtain ⟨f, rfl⟩ : ∃ f, fuel = f + 1 := ⟨fuel - 1, by simp at hf; omega⟩
        rw [mergeLoop_cons_nil]
        exact zipDown_ne_fuel _ _
      | cons b B =>
        have hlen := seed_length a A b B
        rcases hseed : merCovering.seed a A b B with ⟨lo, hi, A3, B3⟩
        rw [hseed] at hlen
        simp only at hlen
        obtain ⟨hi2, A4, B4, hrun, sA4, sB4, _⟩ :=
          absorbLoop_spec 0 (A3.length + B3.length + 2) hi A3 B3 true (by simp)
            (fun _ _ => Nat.zero_le _) (fun _ _ => Nat.zero_le _) (by simp)
        rw [mergeLoop_cons_cons, hseed]
        simp only
        rw [hrun]
        apply ih
        have e1 := sA4.length_le
        have e2 := sB4.length_le
        simp only [List.length_cons] at hf
        omega

/-- Method `merge` never fails for lack of budget in the model: the only
failure is the write through the null tail pointer. -/
theorem merge_budget_suffices (A : merCovering) (I : Option merCovering) :
    A.merge I ≠ .error .fuel := by
  cases I with
  | none => intro h; cases h
  | some B =>
    have h := mergeLoop_ne_fuel (A._intervals.length + B._intervals.length + 1)
      A._intervals B._intervals [] (Nat.le_refl _)
    unfold merCovering.merge
    simp only
    cases hm : merCovering.mergeLoop (A._intervals.length + B._intervals.length + 1)
        A._intervals B._intervals [] with
    | error e =>
      simp only
      intro he
      cases he
      exact h hm
    | ok N => simp

/-! ## Two lists satisfying the invariants that cover the same coordinates are equal -/

theorem covered_tail_gt (a : interval) (l : List interval) (h : invariants (a :: l))
    (x : Nat) (hx : covered l x) : a._hi < x := by
  obtain ⟨i, hi, h1, _⟩ := hx
  have := invariants_head_hi_lt a l h i hi
  omega

theorem covered_head_le (a : interval) (l : List interval) (h : invariants (a :: l))
    (x : Nat) (hx : covered (a :: l) x) : a._lo ≤ x := by
  obtain ⟨i, hi, h1, _⟩ := hx
  have := invariants_head_lo_le a l h i hi
  omega

theorem covered_head_lo (a : interval) (l : List interval) (h : invariants (a :: l)) :
    covered (a :: l) a._lo :=
  ⟨a, List.mem_cons_self _ _, Nat.le_refl _, h.lt a (List.mem_cons_self _ _)⟩

theorem head_hi_le_of_covered (a b : interval) (r1 r2 : List interval)
    (h1 : invariants (a :: r1)) (hlo : a._lo = b._lo)
    (hcov : ∀ x, covered (a :: r1) x ↔ covered (b :: r2) x) : b._hi ≤ a._hi := by
  by_contra hlt
  have ha := h1.lt a (List.mem_cons_self _ _)
  have hc : covered (a :: r1) a._hi :=
    (hcov a._hi).mpr ⟨b, List.mem_cons_self _ _, by omega, by omega⟩
  rw [covered_cons] at hc
  rcases hc with hc | hc
  · omega
  · have := covered_tail_gt a r1 h1 a._hi hc
    omega

/-- The invariants make the interval list a canonical form of the covered set. -/
theorem invariants_covered_unique :
    ∀ l1 l2 : List interval, invariants l1 → invariants l2 →
      (∀ x, covered l1 x ↔ covered l2 x) → l1 = l2 := by
  intro l1
  induction l1 with
  | nil =>
    intro l2 _ h2 hcov
    cases l2 with
    | nil => rfl
    | cons b r2 => exact absurd ((hcov b._lo).mpr (covered_head_lo b r2 h2)) (covered_nil _)
  | cons a r1 ih =>
    intro l2 h1 h2 hcov
    cases l2 with
    | nil => exact absurd ((hcov a._lo).mp (covered_head_lo a r1 h1)) (covered_nil _)
    | cons b r2 =>
      have e1 : b._lo ≤ a._lo :=
        covered_head_le b r2 h2 _ ((hcov a._lo).mp (covered_head_lo a r1 h1))
      have e2 : a._lo ≤ b._lo :=
        covered_head_le a r1 h1 _ ((hcov b._lo).mpr (covered_head_lo b r2 h2))
      have elo : a._lo = b._lo := Nat.le_antisymm e2 e1
      have e3 := head_hi_le_of_covered a b r1 r2 h1 elo hcov
      have e4 := head_hi_le_of_covered b a r2 r1 h2 elo.symm (fun x => (hcov x).symm)
      have ehi : a._hi = b._hi := Nat.le_antisymm e4 e3
      have eab : a = b := by
        cases a; cases b; simp only [interval.mk.injEq]; exact ⟨elo, ehi⟩
      subst eab
      have etail : r1 = r2 := by
        apply ih r2 (invariants_tail a r1 h1) (invariants_tail a r2 h2)
        intro x
        have hx := hcov x
        rw [covered_cons, covered_cons] at hx
        constructor
        · intro hr
          have := covered_tail_gt a r1 h1 x hr
          rcases hx.mp (Or.inr hr) with h | h
          · omega
          · exact h
        · intro hr
          have := covered_tail_gt a r2 h2 x hr
          rcases hx.mpr (Or.inr hr) with h | h
          · omega
          · exact h
      rw [etail]

theorem ne_nil_of_covered (l : List interval) (x : Nat) (h : covered l x) : l ≠ [] := by
  rintro rfl
  exact covered_nil x h

theorem covered_of_ne_nil (l : List interval) (h : invariants l) (hne : l ≠ []) :
    ∃ x, covered l x := by
  cases l with
  | nil => exact absurd rfl hne
  | cons a l => exact ⟨a._lo, covered_head_lo a l h⟩

/-- With an empty output list and exactly one empty input list the outer loop of
merge writes through the null tail pointer, whatever its budget. -/
theorem mergeLoop_one_empty (fuel : Nat) (a : interval) (S : List interval) :
    merCovering.mergeLoop (fuel + 1) (a :: S) [] [] = .error .nullDeref ∧
    merCovering.mergeLoop (fuel + 1) [] (a :: S) [] = .error .nullDeref := by
  constructor <;> simp [merCovering.mergeLoop, merCovering.zipDown, Except.map]

/-! ## Total length and the set of covered coordinates -/

theorem totalLength_cons (a : interval) (l : List interval) :
    totalLength (a :: l) = (a._hi - a._lo) + totalLength l := by
  simp [totalLength]

theorem mem_coveredSet (l : List interval) (x : Nat) : x ∈ coveredSet l ↔ covered l x := by
  induction l with
  | nil => simp [coveredSet, covered_nil]
  | cons a l ih => simp [coveredSet, covered_cons, ih]

theorem coveredSet_card (l : List interval) (h : invariants l) :
    (coveredSet l).card = totalLength l := by
  induction l with
  | nil => rfl
  | cons a l ih =>
    have hd : Disjoint (Finset.Ico a._lo a._hi) (coveredSet l) := by
      rw [Finset.disjoint_left]
      intro x hx hc
      rw [mem_coveredSet] at hc
      have := covered_tail_gt a l h x hc
      rw [Finset.mem_Ico] at hx
      omega
    rw [coveredSet, Finset.card_union_of_disjoint hd, Nat.card_Ico, ih (invariants_tail a l h),
      totalLength_cons]

/-- The `u32bit` loop of `sumOfLengths`, started from `s0`. -/
theorem foldl_sum_u32 (l : List interval) (hlt : ∀ i ∈ l, i._lo < i._hi) :
    ∀ s0 : Nat, s0 + totalLength l < u32Mod →
      l.foldl (fun s i => (s + (i._hi + u32Mod - i._lo) % u32Mod) % u32Mod) s0
        = s0 + totalLength l := by
  induction l with
  | nil => intro s0 _; simp [totalLength]
  | cons a l ih =>
    intro s0 h0
    rw [totalLength_cons] at h0
    have ha := hlt a (List.mem_cons_self _ _)
    have e1 : (a._hi + u32Mod - a._lo) % u32Mod = a._hi - a._lo := by
      have : a._hi + u32Mod - a._lo = (a._hi - a._lo) + u32Mod := by omega
      rw [this, Nat.add_mod_right, Nat.mod_eq_of_lt (by omega)]
    rw [List.foldl_cons, e1, Nat.mod_eq_of_lt (by omega),
      ih (fun i hi => hlt i (List.mem_cons_of_mem _ hi)) _ (by omega), totalLength_cons]
    omega

theorem sumOfLengths_eq_totalLength (s : merCovering) (h : invariants s._intervals)
    (hlt : totalLength s._intervals < u32Mod) : s.sumOfLengths = totalLength s._intervals := by
  unfold merCovering.sumOfLengths
  rw [foldl_sum_u32 _ h.lt 0 (by omega)]
  omega

/-! ## The scan always returns -/

theorem scanLoop_returns (lo hi : Nat) :
    ∀ (c : interval) (rest : List interval),
      ∃ r, merCovering.scanLoop lo hi (c :: rest) = some r := by
  intro c rest
  induction rest generalizing c with
  | nil =>
    simp only [merCovering.scanLoop]
    split_ifs <;> exact ⟨_, rfl⟩
  | cons n rest2 ih =>
    simp only [merCovering.scanLoop]
    split_ifs
    · exact ⟨_, rfl⟩
    · exact ⟨_, rfl⟩
    · exact ⟨_, rfl⟩
    · exact ⟨_, rfl⟩
    · exact ⟨_, rfl⟩
    · obtain ⟨r, hr⟩ := ih n
      exact ⟨c :: r, by rw [hr]; rfl⟩

theorem totalLength_nil : totalLength [] = 0 := rfl

/-- Along the scan the total length grows by at most the width and the number of
intervals changes by at most one. -/
theorem scanLoop_totalLength (lo w : Nat) :
    ∀ l : List interval, invariants l → (∀ h ∈ l.head?, h._lo ≤ lo + w) →
      ∀ r, merCovering.scanLoop lo (lo + w) l = some r →
        totalLength l ≤ totalLength r ∧ totalLength r ≤ totalLength l + w ∧
        r.length ≤ l.length + 1 ∧ l.length ≤ r.length + 1 := by
  intro l
  induction l with
  | nil => intro _ _ r hr; simp [merCovering.scanLoop] at hr
  | cons c rest ih =>
    intro hinv hhead r hr
    have hc := hinv.lt c (List.mem_cons_self _ _)
    have hh : c._lo ≤ lo + w := hhead c rfl
    cases rest with
    | nil =>
      simp only [merCovering.scanLoop] at hr
      split_ifs at hr with h1 h2 h3 <;> cases hr <;>
        simp only [totalLength_cons, totalLength_nil, List.length_cons, List.length_nil] <;>
        omega
    | cons n rest2 =>
      rw [invariants_cons_cons] at hinv
      obtain ⟨_, hcn, hn⟩ := hinv
      have hnlt := hn.lt n (List.mem_cons_self _ _)
      simp only [merCovering.scanLoop] at hr
      split_ifs at hr with h1 h2 h3 h4 h5
      · cases hr
        omega
      · cases hr
        simp only [totalLength_cons, List.length_cons]
        omega
      · cases hr
        simp only [totalLength_cons, List.length_cons]
        omega
      · cases hr
        simp only [totalLength_cons, List.length_cons]
        omega
      · cases hr
        simp only [totalLength_cons, List.length_cons]
        omega
      · cases hs : merCovering.scanLoop lo (lo + w) (n :: rest2) with
        | none => rw [hs] at hr; cases hr
        | some r2 =>
          rw [hs] at hr
          cases hr
          have := ih hn (by intro h hh2; cases hh2; omega) r2 hs
          simp only [totalLength_cons, List.length_cons] at this ⊢
          omega

theorem addMer_totalLength (s : merCovering) (lo : Nat) (hinv : invariants s._intervals)
    (hw : lo + s._width < u32Mod) :
    totalLength s._intervals ≤ totalLength (s.addMer lo)._intervals ∧
    totalLength (s.addMer lo)._intervals ≤ totalLength s._intervals + s._width ∧
    (s.addMer lo)._intervals.length ≤ s._intervals.length + 1 ∧
    s._intervals.length ≤ (s.addMer lo)._intervals.length + 1 := by
  rw [addMer_intervals s lo hw]
  cases hl : s._intervals with
  | nil =>
    simp only [totalLength_cons, totalLength_nil, List.length_cons, List.length_nil]
    omega
  | cons first rest =>
    rw [hl] at hinv
    simp only
    split_ifs with h1
    · simp only [totalLength_cons, List.length_cons]
      omega
    · obtain ⟨r, hr⟩ := scanLoop_returns lo (lo + s._width) first rest
      rw [hr]
      exact scanLoop_totalLength lo s._width (first :: rest) hinv
        (by intro h hh; cases hh; omega) r hr

/-! ## The reference procedure for merge -/

theorem sweep_spec :
    ∀ (xs : List interval) (cur : interval), cur._lo < cur._hi →
      (∀ x ∈ xs, x._lo < x._hi) → (∀ x ∈ xs, cur._lo ≤ x._lo) → xs.Pairwise loLe →
      invariants (sweep cur xs) ∧
      (∀ x, covered (sweep cur xs) x ↔ (cur._lo ≤ x ∧ x < cur._hi) ∨ covered xs x) ∧
      (∀ h ∈ (sweep cur xs).head?, h._lo = cur._lo) := by
  intro xs
  induction xs with
  | nil =>
    intro cur hc _ _ _
    refine ⟨(invariants_single cur).mpr hc, fun x => ?_, ?_⟩
    · simp [sweep, covered_cons, covered_nil]
    · intro h hh
      simp only [sweep, List.head?_cons, Option.mem_def, Option.some.injEq] at hh
      rw [← hh]
  | cons y ys ih =>
    intro cur hc hlt hle hs
    have hy := hlt y (List.mem_cons_self _ _)
    have hcy := hle y (List.mem_cons_self _ _)
    rw [List.pairwise_cons] at hs
    by_cases h : y._lo ≤ cur._hi
    · simp only [sweep, if_pos h]
      obtain ⟨i1, i2, i3⟩ := ih ⟨cur._lo, max cur._hi y._hi⟩
        (by show cur._lo < max cur._hi y._hi; omega)
        (fun x hx => hlt x (List.mem_cons_of_mem _ hx))
        (fun x hx => hle x (List.mem_cons_of_mem _ hx)) hs.2
      refine ⟨i1, fun x => ?_, i3⟩
      rw [i2 x, covered_cons]
      simp only
      by_cases hP : covered ys x <;> simp only [hP, or_true, or_false]
      omega
    · simp only [sweep, if_neg h]
      obtain ⟨i1, i2, i3⟩ := ih y hy
        (fun x hx => hlt x (List.mem_cons_of_mem _ hx))
        (fun x hx => hs.1 x hx) hs.2
      refine ⟨?_, fun x => ?_, ?_⟩
      · rw [invariants_cons]
        refine ⟨hc, ?_, i1⟩
        intro hd hhd
        rw [i3 hd hhd]
        omega
      · rw [covered_cons, i2 x, covered_cons]
      · intro hd hhd
        simp only [List.head?_cons, Option.mem_def, Option.some.injEq] at hhd
        rw [← hhd]

theorem covered_perm (l1 l2 : List interval) (h : l1.Perm l2) (x : Nat) :
    covered l1 x ↔ covered l2 x := by
  unfold covered
  constructor
  · rintro ⟨i, hi, hx⟩; exact ⟨i, h.mem_iff.mp hi, hx⟩
  · rintro ⟨i, hi, hx⟩; exact ⟨i, h.mem_iff.mpr hi, hx⟩

/-- The reference procedure yields a list that satisfies the invariants and
covers what the two input lists cover. -/
theorem sortThenCoalesce_spec (A B : List interval) (hA : invariants A) (hB : invariants B) :
    invariants (sortThenCoalesce A B) ∧
    ∀ x, covered (sortThenCoalesce A B) x ↔ covered A x ∨ covered B x := by
  have hperm : (sortByLo (A ++ B)).Perm (A ++ B) := List.perm_insertionSort loLe (A ++ B)
  have hsorted : (sortByLo (A ++ B)).Pairwise loLe := List.sorted_insertionSort loLe (A ++ B)
  have hlt : ∀ i ∈ sortByLo (A ++ B), i._lo < i._hi := by
    intro i hi
    rcases List.mem_append.mp (hperm.mem_iff.mp hi) with h | h
    · exact hA.lt i h
    · exact hB.lt i h
  have hcov : ∀ x, covered (sortByLo (A ++ B)) x ↔ covered A x ∨ covered B x := by
    intro x
    rw [covered_perm _ _ hperm x, covered_append]
  unfold sortThenCoalesce
  cases hs : sortByLo (A ++ B) with
  | nil =>
    rw [hs] at hcov
    exact ⟨invariants_nil, hcov⟩
  | cons y ys =>
    rw [hs] at hcov hsorted hlt
    rw [List.pairwise_cons] at hsorted
    obtain ⟨i1, i2, _⟩ := sweep_spec ys y (hlt y (List.mem_cons_self _ _))
      (fun x hx => hlt x (List.mem_cons_of_mem _ hx)) (fun x hx => hsorted.1 x hx) hsorted.2
    refine ⟨i1, fun x => ?_⟩
    rw [i2 x, ← hcov x, covered_cons]

/-! ## compare, and the sets built through the interface -/

theorem compareLoop_iff (l1 l2 : List interval) :
    merCovering.compareLoop l1 l2 = true ↔ l1 = l2 := by
  induction l1 generalizing l2 with
  | nil => cases l2 <;> simp [merCovering.compareLoop]
  | cons a l1 ih =>
    cases l2 with
    | nil => simp [merCovering.compareLoop]
    | cons b l2 =>
      simp only [merCovering.compareLoop]
      by_cases h : a._lo ≠ b._lo ∨ a._hi ≠ b._hi
      · rw [if_pos h]
        constructor
        · intro hf; cases hf
        · intro he
          rw [List.cons.injEq] at he
          rcases h with h | h
          · exact absurd (by rw [he.1]) h
          · exact absurd (by rw [he.1]) h
      · rw [if_neg h, ih]
        have e : a = b := by
          cases a; cases b
          simp only [interval.mk.injEq]
          simp only [ne_eq, not_or, not_not] at h
          exact h
        rw [List.cons.injEq]
        exact ⟨fun ht => ⟨e, ht⟩, fun ht => ht.2⟩

theorem merCovering_compare_iff (s t : merCovering) :
    s.compare t = true ↔ s._pieces = t._pieces ∧ s._intervals = t._intervals := by
  unfold merCovering.compare
  by_cases h : s._pieces = t._pieces
  · simp [h, compareLoop_iff]
  · simp [h]

/-- What a merge that returns has done, whether or not the lists are empty. -/
theorem merge_ok_spec (A B R : merCovering) (hA : invariants A._intervals)
    (hB : invariants B._intervals) (h : A.merge (some B) = .ok R) :
    invariants R._intervals ∧
    (∀ x, covered R._intervals x ↔ covered A._intervals x ∨ covered B._intervals x) ∧
    (∀ r ∈ R._intervals, ∃ i, (i ∈ A._intervals ∨ i ∈ B._intervals) ∧
      r._lo = i._lo ∧ i._hi ≤ r._hi) ∧
    R._pieces = (A._pieces + B._pieces) % u32Mod ∧ R._width = A._width := by
  cases hAl : A._intervals with
  | nil =>
    cases hBl : B._intervals with
    | nil =>
      simp only [merCovering.merge, hAl, hBl, List.length_nil, Nat.zero_add,
        mergeLoop_nil_nil] at h
      cases h
      refine ⟨invariants_nil, fun x => ?_, fun r hr => ?_, rfl, rfl⟩
      · simp [covered_nil]
      · cases hr
    | cons b Bl =>
      simp only [merCovering.merge, hAl, hBl, List.length_nil, Nat.zero_add,
        List.length_cons, (mergeLoop_one_empty _ b Bl).2] at h
      cases h
  | cons a Al =>
    cases hBl : B._intervals with
    | nil =>
      simp only [merCovering.merge, hAl, hBl, List.length_nil, Nat.add_zero,
        List.length_cons, (mergeLoop_one_empty _ a Al).1] at h
      cases h
    | cons b Bl =>
      obtain ⟨R2, hR2, h1, h2, h3, h4, h5⟩ :=
        merge_spec A B hA hB (by rw [hAl]; simp) (by rw [hBl]; simp)
      rw [hR2] at h
      cases h
      rw [hAl, hBl] at h2 h3
      exact ⟨h1, h2, h3, h4, h5⟩

theorem pieceInvariant_merge (w : Nat) (A B R : merCovering) (hA : pieceInvariant w A)
    (hB : pieceInvariant w B) (h : A.merge (some B) = .ok R) : pieceInvariant w R := by
  obtain ⟨wA, iA, mA⟩ := hA
  obtain ⟨_, iB, mB⟩ := hB
  obtain ⟨h1, _, h3, _, h5⟩ := merge_ok_spec A B R iA iB h
  refine ⟨by rw [h5, wA], h1, fun r hr => ?_⟩
  obtain ⟨i, hi, e1, e2⟩ := h3 r hr
  have : i._lo + w ≤ i._hi := by
    rcases hi with hi | hi
    · exact mA i hi
    · exact mB i hi
  omega

theorem built_pieceInvariant (w : Nat) (hpos : 0 < w) (s : merCovering) (h : built w s) :
    pieceInvariant w s := by
  induction h with
  | ctor => exact pieceInvariant_ctor w
  | addMer s lo _ hw ih => exact pieceInvariant_addMer w hpos s lo ih hw
  | merge s t r _ _ hm ih1 ih2 => exact pieceInvariant_merge w s t r ih1 ih2 hm

theorem foldl_addMer_ctor_pieces (w : Nat) (ps : List Nat) :
    (ps.foldl merCovering.addMer (merCovering.ctor w))._pieces = ps.length % u32Mod := by
  have h1 := foldl_addMer_pieces ps (merCovering.ctor w)
  have h2 := foldl_addMer_pieces_lt ps (merCovering.ctor w) (by show 0 < u32Mod; decide)
  rw [Nat.mod_eq_of_lt h2] at h1
  rw [h1]
  simp [merCovering.ctor]

theorem foldl_addMer_ctor_covered (w : Nat) (hpos : 0 < w) (ps : List Nat)
    (hps : ∀ p ∈ ps, p + w < u32Mod) (x : Nat) :
    covered (ps.foldl merCovering.addMer (merCovering.ctor w))._intervals x ↔
      ∃ p ∈ ps, p ≤ x ∧ x < p + w := by
  rw [foldl_addMer_covered w hpos ps _ (pieceInvariant_ctor w) hps x]
  simp [merCovering.ctor, covered_nil]

/-! ## The claims -/

/-- C1: for every width `w > 0`, every interval list satisfying the invariants
(each interval `lo < hi`, consecutive intervals `A.hi < B.lo`) and every
position `lo` with `lo + w` representable in 32 bits, the list after
`addMer(lo)` satisfies the invariants again. -/
theorem addMer_preserves_invariants (s : merCovering) (lo : Nat) (hpos : 0 < s._width)
    (hinv : invariants s._intervals) (hw : lo + s._width < u32Mod) :
    invariants (s.addMer lo)._intervals :=
  addMer_invariants_aux s lo hpos hinv hw

theorem addMer_preserves_invariants_witness :
    0 < (merCovering.mk [⟨10, 16⟩, ⟨20, 24⟩] 4 3)._width ∧
    invariants (merCovering.mk [⟨10, 16⟩, ⟨20, 24⟩] 4 3)._intervals ∧
    16 + (merCovering.mk [⟨10, 16⟩, ⟨20, 24⟩] 4 3)._width < u32Mod ∧
    invariants ((merCovering.mk [⟨10, 16⟩, ⟨20, 24⟩] 4 3).addMer 16)._intervals :=
  ⟨by decide, by decide, by decide,
    addMer_preserves_invariants ⟨[⟨10, 16⟩, ⟨20, 24⟩], 4, 3⟩ 16 (by decide) (by decide)
      (by decide)⟩

/-- C2: coverage equivalence for insertion. For every width `w > 0` and every
sequence of positions `ps` (no `p + w` wrapping in 32 bits), after `addMer` of
each position in turn on an empty `merCovering(w)`, a coordinate `x` lies inside
some stored interval if and only if `p ≤ x < p + w` for some inserted `p`. -/
theorem addMer_coverage_equivalence (w : Nat) (ps : List Nat) (hpos : 0 < w)
    (hps : ∀ p ∈ ps, p + w < u32Mod) (x : Nat) :
    covered (ps.foldl merCovering.addMer (merCovering.ctor w))._intervals x ↔
      ∃ p ∈ ps, p ≤ x ∧ x < p + w := by
  rw [foldl_addMer_covered w hpos ps _ (pieceInvariant_ctor w) hps x]
  simp [merCovering.ctor, covered_nil]

theorem addMer_coverage_equivalence_witness :
    0 < 4 ∧ (∀ p ∈ [10, 12, 20, 16], p + 4 < u32Mod) ∧
    ([10, 12, 20, 16].foldl merCovering.addMer (merCovering.ctor 4))._intervals
      = [⟨10, 24⟩] ∧
    (covered ([10, 12, 20, 16].foldl merCovering.addMer (merCovering.ctor 4))._intervals 19 ↔
      ∃ p ∈ [10, 12, 20, 16], p ≤ 19 ∧ 19 < p + 4) :=
  ⟨by decide, by decide, by decide,
    addMer_coverage_equivalence 4 [10, 12, 20, 16] (by decide) (by decide) 19⟩

/-- C3: merge computes the union. For two non-empty interval lists that satisfy
the invariants, `merge` returns, the receiver's list covers exactly the
coordinates covered by either input, and the receiver's piece count is the sum
of the two piece counts modulo `2^32`. -/
theorem merge_computes_union (A B : merCovering) (hA : invariants A._intervals)
    (hB : invariants B._intervals) (hAne : A._intervals ≠ []) (hBne : B._intervals ≠ []) :
    ∃ R, A.merge (some B) = .ok R ∧
      (∀ x, covered R._intervals x ↔ covered A._intervals x ∨ covered B._intervals x) ∧
      R.numberOfPieces = (A.numberOfPieces + B.numberOfPieces) % u32Mod := by
  obtain ⟨R, hR, _, hcov, _, hp, _⟩ := merge_spec A B hA hB hAne hBne
  exact ⟨R, hR, hcov, hp⟩

theorem merge_computes_union_witness :
    invariants (merCovering.mk [⟨3, 8⟩] 4 1)._intervals ∧
    invariants (merCovering.mk [⟨0, 5⟩] 4 1)._intervals ∧
    (merCovering.mk [⟨3, 8⟩] 4 1).merge (some (merCovering.mk [⟨0, 5⟩] 4 1))
      = .ok (merCovering.mk [⟨0, 8⟩] 4 2) ∧
    ∃ R, (merCovering.mk [⟨3, 8⟩] 4 1).merge (some (merCovering.mk [⟨0, 5⟩] 4 1)) = .ok R ∧
      (∀ x, covered R._intervals x ↔
        covered (merCovering.mk [⟨3, 8⟩] 4 1)._intervals x ∨
          covered (merCovering.mk [⟨0, 5⟩] 4 1)._intervals x) ∧
      R.numberOfPieces = ((merCovering.mk [⟨3, 8⟩] 4 1).numberOfPieces +
        (merCovering.mk [⟨0, 5⟩] 4 1).numberOfPieces) % u32Mod :=
  ⟨by decide, by decide, rfl,
    merge_computes_union ⟨[⟨3, 8⟩], 4, 1⟩ ⟨[⟨0, 5⟩], 4, 1⟩ (by decide) (by decide)
      (by decide) (by decide)⟩

/-- C4: merge preserves the invariants. For two non-empty interval lists that
satisfy the invariants, `merge` returns and the receiver's list again has every
interval with `lo < hi` and consecutive intervals `X.hi < Y.lo`. -/
theorem merge_preserves_invariants (A B : merCovering) (hA : invariants A._intervals)
    (hB : invariants B._intervals) (hAne : A._intervals ≠ []) (hBne : B._intervals ≠ []) :
    ∃ R, A.merge (some B) = .ok R ∧ invariants R._intervals := by
  obtain ⟨R, hR, hinv, _⟩ := merge_spec A B hA hB hAne hBne
  exact ⟨R, hR, hinv⟩

theorem merge_preserves_invariants_witness :
    invariants (merCovering.mk [⟨0, 1⟩, ⟨3, 4⟩, ⟨10, 12⟩, ⟨20, 21⟩] 1 5)._intervals ∧
    invariants (merCovering.mk [⟨1, 3⟩, ⟨4, 5⟩, ⟨11, 13⟩, ⟨14, 15⟩] 1 7)._intervals ∧
    ∃ R, (merCovering.mk [⟨0, 1⟩, ⟨3, 4⟩, ⟨10, 12⟩, ⟨20, 21⟩] 1 5).merge
        (some (merCovering.mk [⟨1, 3⟩, ⟨4, 5⟩, ⟨11, 13⟩, ⟨14, 15⟩] 1 7)) = .ok R ∧
      invariants R._intervals :=
  ⟨by decide, by decide,
    merge_preserves_invariants ⟨[⟨0, 1⟩, ⟨3, 4⟩, ⟨10, 12⟩, ⟨20, 21⟩], 1, 5⟩
      ⟨[⟨1, 3⟩, ⟨4, 5⟩, ⟨11, 13⟩, ⟨14, 15⟩], 1, 7⟩ (by decide) (by decide)
      (by decide) (by decide)⟩

/-- C5 (the code at the failing inputs): merging an empty set into a set that
holds at least one interval, and merging such a set into an empty receiver,
both write through the null tail pointer `L` instead of copying the list; only
the merge of two empty sets returns. -/
theorem merge_empty_operand_null_deref (a : interval) (S : List interval)
    (w1 w2 p1 p2 : Nat) :
    (merCovering.mk (a :: S) w1 p1).merge (some (merCovering.mk [] w2 p2))
      = .error .nullDeref ∧
    (merCovering.mk [] w1 p1).merge (some (merCovering.mk (a :: S) w2 p2))
      = .error .nullDeref ∧
    (merCovering.mk [] w1 p1).merge (some (merCovering.mk [] w2 p2))
      = .ok (merCovering.mk [] w1 ((p1 + p2) % u32Mod)) := by
  refine ⟨?_, ?_, rfl⟩
  · simp only [merCovering.merge, List.length_cons, List.length_nil, Nat.add_zero]
    rw [(mergeLoop_one_empty _ a S).1]
  · simp only [merCovering.merge, List.length_cons, List.length_nil, Nat.zero_add]
    rw [(mergeLoop_one_empty _ a S).2]

/-- C6: merge is commutative on intervals. For two non-empty sets whose lists
satisfy the invariants, `A.merge(B)` and `B.merge(A)` both return, the two
resulting interval lists are identical, `sumOfLengths` agrees, and in both
directions `numberOfPieces` is the sum of the two piece counts (a `u32bit`
sum, so reduced modulo `2^32`, and the exact sum whenever that fits). -/
theorem merge_commutative (A B : merCovering) (hA : invariants A._intervals)
    (hB : invariants B._intervals) (hAne : A._intervals ≠ []) (hBne : B._intervals ≠ []) :
    ∃ R1 R2, A.merge (some B) = .ok R1 ∧ B.merge (some A) = .ok R2 ∧
      R1._intervals = R2._intervals ∧ R1.sumOfLengths = R2.sumOfLengths ∧
      R1.numberOfPieces = (A.numberOfPieces + B.numberOfPieces) % u32Mod ∧
      R2.numberOfPieces = (A.numberOfPieces + B.numberOfPieces) % u32Mod ∧
      (A.numberOfPieces + B.numberOfPieces < u32Mod →
        R1.numberOfPieces = A.numberOfPieces + B.numberOfPieces ∧
        R2.numberOfPieces = A.numberOfPieces + B.numberOfPieces) := by
  obtain ⟨R1, h1, inv1, cov1, _, p1, _⟩ := merge_spec A B hA hB hAne hBne
  obtain ⟨R2, h2, inv2, cov2, _, p2, _⟩ := merge_spec B A hB hA hBne hAne
  have e : R1._intervals = R2._intervals :=
    invariants_covered_unique _ _ inv1 inv2 (fun x => by rw [cov1 x, cov2 x, or_comm])
  have q1 : R1.numberOfPieces = (A.numberOfPieces + B.numberOfPieces) % u32Mod := p1
  have q2 : R2.numberOfPieces = (A.numberOfPieces + B.numberOfPieces) % u32Mod := by
    rw [Nat.add_comm]; exact p2
  refine ⟨R1, R2, h1, h2, e, ?_, q1, q2, fun hlt => ?_⟩
  · unfold merCovering.sumOfLengths; rw [e]
  · rw [q1, q2, Nat.mod_eq_of_lt hlt]
    exact ⟨rfl, rfl⟩

theorem merge_commutative_witness :
    invariants (merCovering.mk [⟨0, 5⟩, ⟨9, 12⟩] 3 4)._intervals ∧
    invariants (merCovering.mk [⟨3, 8⟩, ⟨20, 23⟩] 3 2)._intervals ∧
    (merCovering.mk [⟨0, 5⟩, ⟨9, 12⟩] 3 4).merge (some (merCovering.mk [⟨3, 8⟩, ⟨20, 23⟩] 3 2))
      = .ok (merCovering.mk [⟨0, 8⟩, ⟨9, 12⟩, ⟨20, 23⟩] 3 6) ∧
    ∃ R1 R2,
      (merCovering.mk [⟨0, 5⟩, ⟨9, 12⟩] 3 4).merge
        (some (merCovering.mk [⟨3, 8⟩, ⟨20, 23⟩] 3 2)) = .ok R1 ∧
      (merCovering.mk [⟨3, 8⟩, ⟨20, 23⟩] 3 2).merge
        (some (merCovering.mk [⟨0, 5⟩, ⟨9, 12⟩] 3 4)) = .ok R2 ∧
      R1._intervals = R2._intervals ∧ R1.sumOfLengths = R2.sumOfLengths ∧
      R1.numberOfPieces = ((merCovering.mk [⟨0, 5⟩, ⟨9, 12⟩] 3 4).numberOfPieces +
        (merCovering.mk [⟨3, 8⟩, ⟨20, 23⟩] 3 2).numberOfPieces) % u32Mod ∧
      R2.numberOfPieces = ((merCovering.mk [⟨0, 5⟩, ⟨9, 12⟩] 3 4).numberOfPieces +
        (merCovering.mk [⟨3, 8⟩, ⟨20, 23⟩] 3 2).numberOfPieces) % u32Mod ∧
      ((merCovering.mk [⟨0, 5⟩, ⟨9, 12⟩] 3 4).numberOfPieces +
          (merCovering.mk [⟨3, 8⟩, ⟨20, 23⟩] 3 2).numberOfPieces < u32Mod →
        R1.numberOfPieces = (merCovering.mk [⟨0, 5⟩, ⟨9, 12⟩] 3 4).numberOfPieces +
          (merCovering.mk [⟨3, 8⟩, ⟨20, 23⟩] 3 2).numberOfPieces ∧
        R2.numberOfPieces = (merCovering.mk [⟨0, 5⟩, ⟨9, 12⟩] 3 4).numberOfPieces +
          (merCovering.mk [⟨3, 8⟩, ⟨20, 23⟩] 3 2).numberOfPieces) :=
  ⟨by decide, by decide, rfl,
    merge_commutative ⟨[⟨0, 5⟩, ⟨9, 12⟩], 3, 4⟩ ⟨[⟨3, 8⟩, ⟨20, 23⟩], 3, 2⟩
      (by decide) (by decide) (by decide) (by decide)⟩

/-- C7: merge is associative on intervals. For three non-empty sets whose lists
satisfy the invariants, merging `B` into `A` and then `C` into the result
returns the same interval list as merging `C` into `B` and then that result
into `A`; all four merges return. -/
theorem merge_associative (A B C : merCovering) (hA : invariants A._intervals)
    (hB : invariants B._intervals) (hC : invariants C._intervals)
    (hAne : A._intervals ≠ []) (hBne : B._intervals ≠ []) (hCne : C._intervals ≠ []) :
    ∃ AB R1 BC R2, A.merge (some B) = .ok AB ∧ AB.merge (some C) = .ok R1 ∧
      B.merge (some C) = .ok BC ∧ A.merge (some BC) = .ok R2 ∧
      R1._intervals = R2._intervals := by
  obtain ⟨AB, h1, inv1, cov1, _⟩ := merge_spec A B hA hB hAne hBne
  obtain ⟨BC, h3, inv3, cov3, _⟩ := merge_spec B C hB hC hBne hCne
  obtain ⟨xa, hxa⟩ := covered_of_ne_nil _ hA hAne
  obtain ⟨xb, hxb⟩ := covered_of_ne_nil _ hB hBne
  have hABne : AB._intervals ≠ [] := ne_nil_of_covered _ xa ((cov1 xa).mpr (Or.inl hxa))
  have hBCne : BC._intervals ≠ [] := ne_nil_of_covered _ xb ((cov3 xb).mpr (Or.inl hxb))
  obtain ⟨R1, h2, inv2, cov2, _⟩ := merge_spec AB C inv1 hC hABne hCne
  obtain ⟨R2, h4, inv4, cov4, _⟩ := merge_spec A BC hA inv3 hAne hBCne
  refine ⟨AB, R1, BC, R2, h1, h2, h3, h4, ?_⟩
  apply invariants_covered_unique _ _ inv2 inv4
  intro x
  rw [cov2 x, cov4 x, cov1 x, cov3 x, or_assoc]

theorem merge_associative_witness :
    invariants (merCovering.mk [⟨0, 5⟩, ⟨30, 33⟩] 3 4)._intervals ∧
    invariants (merCovering.mk [⟨8, 11⟩, ⟨40, 43⟩] 3 2)._intervals ∧
    invariants (merCovering.mk [⟨5, 8⟩, ⟨33, 36⟩] 3 2)._intervals ∧
    (merCovering.mk [⟨0, 5⟩, ⟨30, 33⟩] 3 4).merge (some (merCovering.mk [⟨8, 11⟩, ⟨40, 43⟩] 3 2))
      = .ok (merCovering.mk [⟨0, 5⟩, ⟨8, 11⟩, ⟨30, 33⟩, ⟨40, 43⟩] 3 6) ∧
    ∃ AB R1 BC R2,
      (merCovering.mk [⟨0, 5⟩, ⟨30, 33⟩] 3 4).merge
        (some (merCovering.mk [⟨8, 11⟩, ⟨40, 43⟩] 3 2)) = .ok AB ∧
      AB.merge (some (merCovering.mk [⟨5, 8⟩, ⟨33, 36⟩] 3 2)) = .ok R1 ∧
      (merCovering.mk [⟨8, 11⟩, ⟨40, 43⟩] 3 2).merge
        (some (merCovering.mk [⟨5, 8⟩, ⟨33, 36⟩] 3 2)) = .ok BC ∧
      (merCovering.mk [⟨0, 5⟩, ⟨30, 33⟩] 3 4).merge (some BC) = .ok R2 ∧
      R1._intervals = R2._intervals :=
  ⟨by decide, by decide, by decide, rfl,
    merge_associative ⟨[⟨0, 5⟩, ⟨30, 33⟩], 3, 4⟩ ⟨[⟨8, 11⟩, ⟨40, 43⟩], 3, 2⟩
      ⟨[⟨5, 8⟩, ⟨33, 36⟩], 3, 2⟩ (by decide) (by decide) (by decide)
      (by decide) (by decide) (by decide)⟩

/-- C8: the piece count counts calls. After `n` calls of `addMer` on a freshly
constructed set, or on a set just cleared, `numberOfPieces()` is `n` modulo
`2^32`, whatever the width and the positions; and every single `addMer` call
adds one to the count (modulo `2^32`) whichever branch it takes. -/
theorem numberOfPieces_counts_calls (w : Nat) (ps : List Nat) :
    (ps.foldl merCovering.addMer (merCovering.ctor w)).numberOfPieces
      = ps.length % u32Mod ∧
    (∀ s : merCovering, (ps.foldl merCovering.addMer s.clear).numberOfPieces
      = ps.length % u32Mod) ∧
    (∀ (s : merCovering) (lo : Nat),
      (s.addMer lo).numberOfPieces = (s.numberOfPieces + 1) % u32Mod) := by
  have key : ∀ s : merCovering, s._pieces = 0 →
      (ps.foldl merCovering.addMer s)._pieces = ps.length % u32Mod := by
    intro s hs
    have h1 := foldl_addMer_pieces ps s
    have h2 := foldl_addMer_pieces_lt ps s (by rw [hs]; unfold u32Mod; omega)
    rw [Nat.mod_eq_of_lt h2, hs, Nat.zero_add] at h1
    exact h1
  exact ⟨key _ rfl, fun s => key _ rfl, fun s lo => addMer_pieces s lo⟩

/-- C9: clear resets fully. After `clear()` the interval list is empty,
`sumOfLengths()` and `numberOfPieces()` are 0 and the width is unchanged; so
any sequence of `addMer` calls after `clear()` gives the same set (interval
list, piece count and width) as on a freshly constructed set of that width. -/
theorem clear_resets_fully (s : merCovering) :
    s.clear._intervals = [] ∧ s.clear.sumOfLengths = 0 ∧ s.clear.numberOfPieces = 0 ∧
    s.clear._width = s._width ∧
    ∀ ps : List Nat, ps.foldl merCovering.addMer s.clear
      = ps.foldl merCovering.addMer (merCovering.ctor s._width) :=
  ⟨rfl, rfl, rfl, rfl, fun _ => rfl⟩

/-- C10: idempotent containment. For a list satisfying the invariants (with
`u32bit` bounds) and a position `lo` such that some stored interval `c` has
`c.lo ≤ lo` and `lo + width ≤ c.hi`, `addMer(lo)` leaves the interval list
exactly as it was and only adds one to the piece count. -/
theorem addMer_contained_unchanged (s : merCovering) (lo : Nat)
    (hinv : invariants s._intervals) (hu : ∀ i ∈ s._intervals, i._hi < u32Mod)
    (hc : ∃ c ∈ s._intervals, c._lo ≤ lo ∧ lo + s._width ≤ c._hi) :
    (s.addMer lo)._intervals = s._intervals ∧
    (s.addMer lo).numberOfPieces = (s.numberOfPieces + 1) % u32Mod ∧
    (s.addMer lo)._width = s._width := by
  obtain ⟨c, hcm, hclo, hchi⟩ := hc
  have hw : lo + s._width < u32Mod := Nat.lt_of_le_of_lt hchi (hu c hcm)
  refine ⟨?_, addMer_pieces s lo, addMer_width s lo⟩
  rw [addMer_intervals s lo hw]
  cases hl : s._intervals with
  | nil => rw [hl] at hcm; cases hcm
  | cons first rest =>
    rw [hl] at hinv hcm
    have hf := invariants_head_lo_le first rest hinv c hcm
    simp only
    rw [if_neg (by omega),
      scanLoop_contained lo (lo + s._width) (Nat.le_add_right _ _) (first :: rest) hinv
        ⟨c, hcm, hclo, hchi⟩]
    rfl

theorem addMer_contained_unchanged_witness :
    invariants (merCovering.mk [⟨2, 6⟩, ⟨10, 24⟩, ⟨30, 34⟩] 4 9)._intervals ∧
    (∀ i ∈ (merCovering.mk [⟨2, 6⟩, ⟨10, 24⟩, ⟨30, 34⟩] 4 9)._intervals, i._hi < u32Mod) ∧
    (∃ c ∈ (merCovering.mk [⟨2, 6⟩, ⟨10, 24⟩, ⟨30, 34⟩] 4 9)._intervals,
      c._lo ≤ 20 ∧ 20 + (merCovering.mk [⟨2, 6⟩, ⟨10, 24⟩, ⟨30, 34⟩] 4 9)._width ≤ c._hi) ∧
    ((merCovering.mk [⟨2, 6⟩, ⟨10, 24⟩, ⟨30, 34⟩] 4 9).addMer 20)._intervals
      = (merCovering.mk [⟨2, 6⟩, ⟨10, 24⟩, ⟨30, 34⟩] 4 9)._intervals ∧
    ((merCovering.mk [⟨2, 6⟩, ⟨10, 24⟩, ⟨30, 34⟩] 4 9).addMer 20).numberOfPieces
      = ((merCovering.mk [⟨2, 6⟩, ⟨10, 24⟩, ⟨30, 34⟩] 4 9).numberOfPieces + 1) % u32Mod ∧
    ((merCovering.mk [⟨2, 6⟩, ⟨10, 24⟩, ⟨30, 34⟩] 4 9).addMer 20)._width
      = (merCovering.mk [⟨2, 6⟩, ⟨10, 24⟩, ⟨30, 34⟩] 4 9)._width :=
  ⟨by decide, by decide, by decide,
    addMer_contained_unchanged ⟨[⟨2, 6⟩, ⟨10, 24⟩, ⟨30, 34⟩], 4, 9⟩ 20 (by decide)
      (by decide) (by decide)⟩

/-- C11: `sumOfLengths` counts the covered positions. For a list satisfying the
invariants whose total length is below `2^32`, `sumOfLengths()` is the sum of
`hi - lo` over all intervals, and this is the number of distinct coordinates
that lie in some stored interval (the size of the finite set `coveredSet`, whose
members are exactly the covered coordinates). -/
theorem sumOfLengths_counts_covered (s : merCovering) (hinv : invariants s._intervals)
    (hlt : (s._intervals.map (fun i => i._hi - i._lo)).sum < u32Mod) :
    s.sumOfLengths = (s._intervals.map (fun i => i._hi - i._lo)).sum ∧
    (∀ x, x ∈ coveredSet s._intervals ↔ covered s._intervals x) ∧
    s.sumOfLengths = (coveredSet s._intervals).card ∧
    s.sumOfLengths = Set.ncard {x | covered s._intervals x} := by
  have e1 : s.sumOfLengths = totalLength s._intervals :=
    sumOfLengths_eq_totalLength s hinv hlt
  have e2 := coveredSet_card s._intervals hinv
  have e3 : {x | covered s._intervals x} = ((coveredSet s._intervals : Finset Nat) : Set Nat) := by
    ext x
    simp [mem_coveredSet]
  refine ⟨e1, mem_coveredSet _, by rw [e1, e2], ?_⟩
  rw [e3, Set.ncard_coe_Finset, e1, e2]

theorem sumOfLengths_counts_covered_witness :
    invariants (merCovering.mk [⟨10, 16⟩, ⟨20, 24⟩] 4 3)._intervals ∧
    ((merCovering.mk [⟨10, 16⟩, ⟨20, 24⟩] 4 3)._intervals.map
      (fun i => i._hi - i._lo)).sum < u32Mod ∧
    (merCovering.mk [⟨10, 16⟩, ⟨20, 24⟩] 4 3).sumOfLengths = 10 ∧
    ((merCovering.mk [⟨10, 16⟩, ⟨20, 24⟩] 4 3).sumOfLengths =
        ((merCovering.mk [⟨10, 16⟩, ⟨20, 24⟩] 4 3)._intervals.map
          (fun i => i._hi - i._lo)).sum ∧
      (∀ x, x ∈ coveredSet (merCovering.mk [⟨10, 16⟩, ⟨20, 24⟩] 4 3)._intervals ↔
        covered (merCovering.mk [⟨10, 16⟩, ⟨20, 24⟩] 4 3)._intervals x) ∧
      (merCovering.mk [⟨10, 16⟩, ⟨20, 24⟩] 4 3).sumOfLengths =
        (coveredSet (merCovering.mk [⟨10, 16⟩, ⟨20, 24⟩] 4 3)._intervals).card ∧
      (merCovering.mk [⟨10, 16⟩, ⟨20, 24⟩] 4 3).sumOfLengths =
        Set.ncard {x | covered (merCovering.mk [⟨10, 16⟩, ⟨20, 24⟩] 4 3)._intervals x}) :=
  ⟨by decide, by decide, by decide,
    sumOfLengths_counts_covered ⟨[⟨10, 16⟩, ⟨20, 24⟩], 4, 3⟩ (by decide) (by decide)⟩

/-- C12 (as stated, refuted): a set of width 0 is constructed without any
failure and is observable; `addMer(5)` on it stores the empty interval `(5,5)`,
so it is not true that every constructed set has a positive width. -/
theorem ctor_width_zero_observable :
    ¬ (∀ (w : Nat) (ps : List Nat),
        0 < (ps.foldl merCovering.addMer (merCovering.ctor w))._width) ∧
    (merCovering.ctor 0)._width = 0 ∧
    ((merCovering.ctor 0).addMer 5)._intervals = [⟨5, 5⟩] := by
  refine ⟨fun h => ?_, rfl, by decide⟩
  exact absurd (h 0 []) (by decide)

/-- C12 (amended): the constructor accepts every width, 0 included, and yields
the empty set of that width with no pieces; on the set of width 0, `addMer(lo)`
stores the empty interval from `lo` to `lo`. -/
theorem ctor_accepts_every_width (w lo : Nat) :
    (merCovering.ctor w)._width = w ∧ (merCovering.ctor w)._intervals = [] ∧
    (merCovering.ctor w).numberOfPieces = 0 ∧
    ((merCovering.ctor 0).addMer lo)._intervals = [⟨lo, lo % u32Mod⟩] :=
  ⟨rfl, rfl, rfl, rfl⟩

/-- C13 (as stated, refuted): width 4, the list `[(5,6)]` (which satisfies the
invariants) and `lo = 3`: the scan only moves the end of `(5,6)` to 7, so the
coordinate 3 of the piece is not covered afterwards. -/
theorem addMer_short_interval_loses_coverage :
    0 < (merCovering.mk [⟨5, 6⟩] 4 1)._width ∧
    invariants (merCovering.mk [⟨5, 6⟩] 4 1)._intervals ∧
    3 + (merCovering.mk [⟨5, 6⟩] 4 1)._width < u32Mod ∧
    ((merCovering.mk [⟨5, 6⟩] 4 1).addMer 3)._intervals = [⟨5, 7⟩] ∧
    ¬ (∀ x, covered ((merCovering.mk [⟨5, 6⟩] 4 1).addMer 3)._intervals x ↔
        covered (merCovering.mk [⟨5, 6⟩] 4 1)._intervals x ∨
          (3 ≤ x ∧ x < 3 + (merCovering.mk [⟨5, 6⟩] 4 1)._width)) := by
  refine ⟨by decide, by decide, by decide, by decide, fun h => ?_⟩
  exact absurd (h 3) (by decide)

/-- C13 (amended): for every width `w > 0`, every list that satisfies the
invariants and whose intervals are all at least `w` long, and every `lo` with
`lo + w` not wrapping, the coordinates covered after `addMer(lo)` are those
covered before together with those of the piece from `lo` to `lo + w`. -/
theorem addMer_inserts_range (s : merCovering) (lo : Nat) (hpos : 0 < s._width)
    (hinv : invariants s._intervals) (hmin : minLength s._width s._intervals)
    (hw : lo + s._width < u32Mod) (x : Nat) :
    covered (s.addMer lo)._intervals x ↔
      covered s._intervals x ∨ (lo ≤ x ∧ x < lo + s._width) :=
  (addMer_covered s lo hpos hinv hmin hw).1 x

theorem addMer_inserts_range_witness :
    0 < (merCovering.mk [⟨5, 9⟩, ⟨20, 26⟩] 4 3)._width ∧
    invariants (merCovering.mk [⟨5, 9⟩, ⟨20, 26⟩] 4 3)._intervals ∧
    minLength (merCovering.mk [⟨5, 9⟩, ⟨20, 26⟩] 4 3)._width
      (merCovering.mk [⟨5, 9⟩, ⟨20, 26⟩] 4 3)._intervals ∧
    3 + (merCovering.mk [⟨5, 9⟩, ⟨20, 26⟩] 4 3)._width < u32Mod ∧
    (covered ((merCovering.mk [⟨5, 9⟩, ⟨20, 26⟩] 4 3).addMer 3)._intervals 3 ↔
      covered (merCovering.mk [⟨5, 9⟩, ⟨20, 26⟩] 4 3)._intervals 3 ∨
        (3 ≤ 3 ∧ 3 < 3 + (merCovering.mk [⟨5, 9⟩, ⟨20, 26⟩] 4 3)._width)) :=
  ⟨by decide, by decide, by decide, by decide,
    addMer_inserts_range ⟨[⟨5, 9⟩, ⟨20, 26⟩], 4, 3⟩ 3 (by decide) (by decide) (by decide)
      (by decide) 3⟩

/-- C14: the insertion scan never falls through. For every width, every list
and every position the loop of `addMer` returns from one of its branches: on a
non-empty list the scan yields a list (it never runs off the end), and `addMer`
therefore either prepends (empty list, or piece wholly before the head) or
installs the list the scan returned. -/
theorem addMer_scan_never_falls_through (s : merCovering) (lo : Nat) :
    (∀ (c : interval) (rest : List interval) (hi : Nat),
      (merCovering.scanLoop lo hi (c :: rest)).isSome = true) ∧
    ((s._intervals = [] ∧
        (s.addMer lo)._intervals = [⟨lo, (lo + s._width) % u32Mod⟩]) ∨
     (∃ first rest, s._intervals = first :: rest ∧
        (lo + s._width) % u32Mod < first._lo ∧
        (s.addMer lo)._intervals = ⟨lo, (lo + s._width) % u32Mod⟩ :: first :: rest) ∨
     (∃ first rest r, s._intervals = first :: rest ∧
        ¬ (lo + s._width) % u32Mod < first._lo ∧
        merCovering.scanLoop lo ((lo + s._width) % u32Mod) (first :: rest) = some r ∧
        (s.addMer lo)._intervals = r)) := by
  constructor
  · intro c rest hi
    obtain ⟨r, hr⟩ := scanLoop_returns lo hi c rest
    rw [hr]; rfl
  · unfold merCovering.addMer
    cases hl : s._intervals with
    | nil => exact Or.inl ⟨rfl, rfl⟩
    | cons first rest =>
      simp only
      by_cases h : (lo + s._width) % u32Mod < first._lo
      · rw [if_pos h]
        exact Or.inr (Or.inl ⟨first, rest, rfl, h, rfl⟩)
      · rw [if_neg h]
        obtain ⟨r, hr⟩ := scanLoop_returns lo ((lo + s._width) % u32Mod) first rest
        rw [hr]
        exact Or.inr (Or.inr ⟨first, rest, r, rfl, h, hr, rfl⟩)

/-- C15 (as stated, refuted): on the empty set of width 2 the position
`2^32 - 1` gives `hi = (2^32 - 1 + 2) mod 2^32 = 1`, and the stored interval
`(4294967295, 1)` does not have `lo < hi`. -/
theorem addMer_wrapping_breaks_lo_lt_hi :
    0 < (merCovering.ctor 2)._width ∧ 4294967295 < u32Mod ∧
    ((merCovering.ctor 2).addMer 4294967295)._intervals = [⟨4294967295, 1⟩] ∧
    ¬ (∀ i ∈ ((merCovering.ctor 2).addMer 4294967295)._intervals, i._lo < i._hi) := by
  refine ⟨by decide, by decide, by decide, by decide⟩

/-- C15 (amended): for every width `w > 0` and every position `lo` with
`lo + w < 2^32` (no wrap-around), after `addMer(lo)` on the empty set or on any
set satisfying the invariants every stored interval has `lo < hi`. -/
theorem addMer_keeps_lo_lt_hi (s : merCovering) (lo : Nat) (hpos : 0 < s._width)
    (hinv : invariants s._intervals) (hw : lo + s._width < u32Mod) :
    ∀ i ∈ (s.addMer lo)._intervals, i._lo < i._hi :=
  (addMer_invariants_aux s lo hpos hinv hw).lt

theorem addMer_keeps_lo_lt_hi_witness :
    0 < (merCovering.ctor 2)._width ∧ invariants (merCovering.ctor 2)._intervals ∧
    4294967293 + (merCovering.ctor 2)._width < u32Mod ∧
    ∀ i ∈ ((merCovering.ctor 2).addMer 4294967293)._intervals, i._lo < i._hi :=
  ⟨by decide, by decide, by decide,
    addMer_keeps_lo_lt_hi (merCovering.ctor 2) 4294967293 (by decide) (by decide) (by decide)⟩

/-- C16: merge refines sort-then-coalesce. For two non-empty interval lists
that satisfy the invariants, `merge` returns and the receiver's interval list is
the list produced by the reference procedure (combine, sort by `lo`, sweep). -/
theorem merge_refines_sortThenCoalesce (A B : merCovering) (hA : invariants A._intervals)
    (hB : invariants B._intervals) (hAne : A._intervals ≠ []) (hBne : B._intervals ≠ []) :
    ∃ R, A.merge (some B) = .ok R ∧
      R._intervals = sortThenCoalesce A._intervals B._intervals := by
  obtain ⟨R, hR, hinv, hcov, _⟩ := merge_spec A B hA hB hAne hBne
  obtain ⟨sinv, scov⟩ := sortThenCoalesce_spec A._intervals B._intervals hA hB
  exact ⟨R, hR, invariants_covered_unique _ _ hinv sinv (fun x => by rw [hcov x, scov x])⟩

theorem merge_refines_sortThenCoalesce_witness :
    invariants (merCovering.mk [⟨0, 1⟩, ⟨3, 4⟩, ⟨10, 12⟩, ⟨20, 21⟩] 1 5)._intervals ∧
    invariants (merCovering.mk [⟨1, 3⟩, ⟨4, 5⟩, ⟨11, 13⟩, ⟨14, 15⟩] 1 7)._intervals ∧
    sortThenCoalesce (merCovering.mk [⟨0, 1⟩, ⟨3, 4⟩, ⟨10, 12⟩, ⟨20, 21⟩] 1 5)._intervals
      (merCovering.mk [⟨1, 3⟩, ⟨4, 5⟩, ⟨11, 13⟩, ⟨14, 15⟩] 1 7)._intervals
      = [⟨0, 5⟩, ⟨10, 13⟩, ⟨14, 15⟩, ⟨20, 21⟩] ∧
    ∃ R, (merCovering.mk [⟨0, 1⟩, ⟨3, 4⟩, ⟨10, 12⟩, ⟨20, 21⟩] 1 5).merge
        (some (merCovering.mk [⟨1, 3⟩, ⟨4, 5⟩, ⟨11, 13⟩, ⟨14, 15⟩] 1 7)) = .ok R ∧
      R._intervals = sortThenCoalesce
        (merCovering.mk [⟨0, 1⟩, ⟨3, 4⟩, ⟨10, 12⟩, ⟨20, 21⟩] 1 5)._intervals
        (merCovering.mk [⟨1, 3⟩, ⟨4, 5⟩, ⟨11, 13⟩, ⟨14, 15⟩] 1 7)._intervals :=
  ⟨by decide, by decide, by decide,
    merge_refines_sortThenCoalesce ⟨[⟨0, 1⟩, ⟨3, 4⟩, ⟨10, 12⟩, ⟨20, 21⟩], 1, 5⟩
      ⟨[⟨1, 3⟩, ⟨4, 5⟩, ⟨11, 13⟩, ⟨14, 15⟩], 1, 7⟩ (by decide) (by decide)
      (by decide) (by decide)⟩

/-- C17: the implicit minimum-length invariant. For every width `w > 0`, in
every set built from an empty `merCovering(w)` by non-wrapping `addMer` calls
and by merges with sets built the same way, every stored interval has
`hi - lo ≥ w`. -/
theorem built_intervals_at_least_width (w : Nat) (hpos : 0 < w) (s : merCovering)
    (h : built w s) : ∀ i ∈ s._intervals, i._hi - i._lo ≥ w := by
  intro i hi
  have := (built_pieceInvariant w hpos s h).2.2 i hi
  omega

theorem built_intervals_at_least_width_witness :
    0 < 4 ∧
    built 4 ((([10, 12, 20].foldl merCovering.addMer (merCovering.ctor 4))) ) ∧
    ∀ i ∈ ([10, 12, 20].foldl merCovering.addMer (merCovering.ctor 4))._intervals,
      i._hi - i._lo ≥ 4 :=
  ⟨by decide,
    built.addMer _ 20 (built.addMer _ 12 (built.addMer _ 10 built.ctor (by decide)) (by decide))
      (by decide),
    built_intervals_at_least_width 4 (by decide) _
      (built.addMer _ 20
        (built.addMer _ 12 (built.addMer _ 10 built.ctor (by decide)) (by decide))
        (by decide))⟩

/-- C18: insertion-order independence. For every width `w > 0` and two
sequences of positions that are permutations of each other (no piece wrapping),
inserting them with `addMer` into two freshly constructed sets of width `w`
gives identical interval lists and identical piece counts. -/
theorem addMer_order_independent (w : Nat) (ps qs : List Nat) (hpos : 0 < w)
    (hperm : ps.Perm qs) (hps : ∀ p ∈ ps, p + w < u32Mod) :
    (ps.foldl merCovering.addMer (merCovering.ctor w))._intervals
      = (qs.foldl merCovering.addMer (merCovering.ctor w))._intervals ∧
    (ps.foldl merCovering.addMer (merCovering.ctor w)).numberOfPieces
      = (qs.foldl merCovering.addMer (merCovering.ctor w)).numberOfPieces := by
  have hqs : ∀ q ∈ qs, q + w < u32Mod := fun q hq => hps q (hperm.mem_iff.mpr hq)
  have i1 := (foldl_addMer_pieceInvariant w hpos ps _ (pieceInvariant_ctor w) hps).2.1
  have i2 := (foldl_addMer_pieceInvariant w hpos qs _ (pieceInvariant_ctor w) hqs).2.1
  constructor
  · apply invariants_covered_unique _ _ i1 i2
    intro x
    rw [foldl_addMer_ctor_covered w hpos ps hps, foldl_addMer_ctor_covered w hpos qs hqs]
    constructor
    · rintro ⟨p, hp, h⟩; exact ⟨p, hperm.mem_iff.mp hp, h⟩
    · rintro ⟨p, hp, h⟩; exact ⟨p, hperm.mem_iff.mpr hp, h⟩
  · show (ps.foldl merCovering.addMer (merCovering.ctor w))._pieces
      = (qs.foldl merCovering.addMer (merCovering.ctor w))._pieces
    rw [foldl_addMer_ctor_pieces, foldl_addMer_ctor_pieces, hperm.length_eq]

theorem addMer_order_independent_witness :
    0 < 4 ∧ [10, 12, 20, 16].Perm [16, 20, 12, 10] ∧
    (∀ p ∈ [10, 12, 20, 16], p + 4 < u32Mod) ∧
    ([16, 20, 12, 10].foldl merCovering.addMer (merCovering.ctor 4))._intervals
      = [⟨10, 24⟩] ∧
    ([10, 12, 20, 16].foldl merCovering.addMer (merCovering.ctor 4))._intervals
      = ([16, 20, 12, 10].foldl merCovering.addMer (merCovering.ctor 4))._intervals ∧
    ([10, 12, 20, 16].foldl merCovering.addMer (merCovering.ctor 4)).numberOfPieces
      = ([16, 20, 12, 10].foldl merCovering.addMer (merCovering.ctor 4)).numberOfPieces :=
  ⟨by decide, by decide, by decide, by decide,
    addMer_order_independent 4 [10, 12, 20, 16] [16, 20, 12, 10] (by decide) (by decide)
      (by decide)⟩

/-- C19: merging agrees with inserting everything into one set. For every
width `w > 0` and two non-empty sequences of positions `P` and `Q` (no piece
wrapping), the set built from `P` merged with the set built from `Q` passes
`compare()` against the set built by inserting `P` followed by `Q`: the piece
counts are equal and the interval lists are identical. -/
theorem merge_agrees_with_inserting_all (w : Nat) (P Q : List Nat) (hpos : 0 < w)
    (hP : P ≠ []) (hQ : Q ≠ []) (hPw : ∀ p ∈ P, p + w < u32Mod)
    (hQw : ∀ q ∈ Q, q + w < u32Mod) :
    ∃ R, (P.foldl merCovering.addMer (merCovering.ctor w)).merge
        (some (Q.foldl merCovering.addMer (merCovering.ctor w))) = .ok R ∧
      R.compare ((P ++ Q).foldl merCovering.addMer (merCovering.ctor w)) = true ∧
      R.numberOfPieces
        = ((P ++ Q).foldl merCovering.addMer (merCovering.ctor w)).numberOfPieces ∧
      R._intervals = ((P ++ Q).foldl merCovering.addMer (merCovering.ctor w))._intervals := by
  have hPQw : ∀ p ∈ P ++ Q, p + w < u32Mod := by
    intro p hp
    rcases List.mem_append.mp hp with h | h
    · exact hPw p h
    · exact hQw p h
  have iP := (foldl_addMer_pieceInvariant w hpos P _ (pieceInvariant_ctor w) hPw).2.1
  have iQ := (foldl_addMer_pieceInvariant w hpos Q _ (pieceInvariant_ctor w) hQw).2.1
  have iPQ := (foldl_addMer_pieceInvariant w hpos (P ++ Q) _ (pieceInvariant_ctor w) hPQw).2.1
  have neP : (P.foldl merCovering.addMer (merCovering.ctor w))._intervals ≠ [] := by
    obtain ⟨p, hp⟩ := List.exists_mem_of_ne_nil P hP
    exact ne_nil_of_covered _ p
      ((foldl_addMer_ctor_covered w hpos P hPw p).mpr ⟨p, hp, Nat.le_refl _, by omega⟩)
  have neQ : (Q.foldl merCovering.addMer (merCovering.ctor w))._intervals ≠ [] := by
    obtain ⟨q, hq⟩ := List.exists_mem_of_ne_nil Q hQ
    exact ne_nil_of_covered _ q
      ((foldl_addMer_ctor_covered w hpos Q hQw q).mpr ⟨q, hq, Nat.le_refl _, by omega⟩)
  obtain ⟨R, hR, hinv, hcov, _, hp, _⟩ := merge_spec _ _ iP iQ neP neQ
  have eI : R._intervals
      = ((P ++ Q).foldl merCovering.addMer (merCovering.ctor w))._intervals := by
    apply invariants_covered_unique _ _ hinv iPQ
    intro x
    rw [hcov x, foldl_addMer_ctor_covered w hpos P hPw, foldl_addMer_ctor_covered w hpos Q hQw,
      foldl_addMer_ctor_covered w hpos (P ++ Q) hPQw]
    simp only [List.mem_append]
    constructor
    · rintro (⟨p, hp, h⟩ | ⟨p, hp, h⟩)
      · exact ⟨p, Or.inl hp, h⟩
      · exact ⟨p, Or.inr hp, h⟩
    · rintro ⟨p, hp | hp, h⟩
      · exact Or.inl ⟨p, hp, h⟩
      · exact Or.inr ⟨p, hp, h⟩
  have eP : R._pieces
      = ((P ++ Q).foldl merCovering.addMer (merCovering.ctor w))._pieces := by
    rw [hp, foldl_addMer_ctor_pieces, foldl_addMer_ctor_pieces, foldl_addMer_ctor_pieces,
      List.length_append]
    exact (Nat.add_mod _ _ _).symm
  exact ⟨R, hR, (merCovering_compare_iff _ _).mpr ⟨eP, eI⟩, eP, eI⟩

theorem merge_agrees_with_inserting_all_witness :
    0 < 4 ∧ [10, 20] ≠ [] ∧ [16, 12] ≠ [] ∧ (∀ p ∈ [10, 20], p + 4 < u32Mod) ∧
    (∀ q ∈ [16, 12], q + 4 < u32Mod) ∧
    ([10, 20].foldl merCovering.addMer (merCovering.ctor 4)).merge
        (some ([16, 12].foldl merCovering.addMer (merCovering.ctor 4)))
      = .ok (merCovering.mk [⟨10, 24⟩] 4 4) ∧
    ∃ R, ([10, 20].foldl merCovering.addMer (merCovering.ctor 4)).merge
        (some ([16, 12].foldl merCovering.addMer (merCovering.ctor 4))) = .ok R ∧
      R.compare (([10, 20] ++ [16, 12]).foldl merCovering.addMer (merCovering.ctor 4)) = true ∧
      R.numberOfPieces
        = (([10, 20] ++ [16, 12]).foldl merCovering.addMer (merCovering.ctor 4)).numberOfPieces ∧
      R._intervals
        = (([10, 20] ++ [16, 12]).foldl merCovering.addMer (merCovering.ctor 4))._intervals :=
  ⟨by decide, by decide, by decide, by decide, by decide, rfl,
    merge_agrees_with_inserting_all 4 [10, 20] [16, 12] (by decide) (by decide) (by decide)
      (by decide) (by decide)⟩

/-- C20: the covered length is monotone and bounded per insertion. For every
width `w > 0`, every list satisfying the invariants and every `lo` with `lo + w`
not wrapping, with the total lengths before and after below `2^32`:
`sumOfLengths()` after `addMer(lo)` is at least the value before and at most the
value before plus `w`, and the number of stored intervals changes by at most
one. -/
theorem addMer_sumOfLengths_bounded (s : merCovering) (lo : Nat) (hpos : 0 < s._width)
    (hinv : invariants s._intervals) (hw : lo + s._width < u32Mod)
    (hb : totalLength s._intervals < u32Mod)
    (ha : totalLength (s.addMer lo)._intervals < u32Mod) :
    s.sumOfLengths ≤ (s.addMer lo).sumOfLengths ∧
    (s.addMer lo).sumOfLengths ≤ s.sumOfLengths + s._width ∧
    (s.addMer lo)._intervals.length ≤ s._intervals.length + 1 ∧
    s._intervals.length ≤ (s.addMer lo)._intervals.length + 1 := by
  have hinv2 := addMer_invariants_aux s lo hpos hinv hw
  rw [sumOfLengths_eq_totalLength s hinv hb,
    sumOfLengths_eq_totalLength (s.addMer lo) hinv2 ha]
  exact addMer_totalLength s lo hinv hw

theorem addMer_sumOfLengths_bounded_witness :
    0 < (merCovering.mk [⟨10, 16⟩, ⟨20, 24⟩] 4 3)._width ∧
    invariants (merCovering.mk [⟨10, 16⟩, ⟨20, 24⟩] 4 3)._intervals ∧
    16 + (merCovering.mk [⟨10, 16⟩, ⟨20, 24⟩] 4 3)._width < u32Mod ∧
    totalLength (merCovering.mk [⟨10, 16⟩, ⟨20, 24⟩] 4 3)._intervals < u32Mod ∧
    totalLength ((merCovering.mk [⟨10, 16⟩, ⟨20, 24⟩] 4 3).addMer 16)._intervals < u32Mod ∧
    (merCovering.mk [⟨10, 16⟩, ⟨20, 24⟩] 4 3).sumOfLengths = 10 ∧
    ((merCovering.mk [⟨10, 16⟩, ⟨20, 24⟩] 4 3).addMer 16).sumOfLengths = 14 ∧
    ((merCovering.mk [⟨10, 16⟩, ⟨20, 24⟩] 4 3).sumOfLengths
        ≤ ((merCovering.mk [⟨10, 16⟩, ⟨20, 24⟩] 4 3).addMer 16).sumOfLengths ∧
      ((merCovering.mk [⟨10, 16⟩, ⟨20, 24⟩] 4 3).addMer 16).sumOfLengths
        ≤ (merCovering.mk [⟨10, 16⟩, ⟨20, 24⟩] 4 3).sumOfLengths
          + (merCovering.mk [⟨10, 16⟩, ⟨20, 24⟩] 4 3)._width ∧
      ((merCovering.mk [⟨10, 16⟩, ⟨20, 24⟩] 4 3).addMer 16)._intervals.length
        ≤ (merCovering.mk [⟨10, 16⟩, ⟨20, 24⟩] 4 3)._intervals.length + 1 ∧
      (merCovering.mk [⟨10, 16⟩, ⟨20, 24⟩] 4 3)._intervals.length
        ≤ ((merCovering.mk [⟨10, 16⟩, ⟨20, 24⟩] 4 3).addMer 16)._intervals.length + 1) :=
  ⟨by decide, by decide, by decide, by decide, by decide, by decide, by decide,
    addMer_sumOfLengths_bounded ⟨[⟨10, 16⟩, ⟨20, 24⟩], 4, 3⟩ 16 (by decide) (by decide)
      (by decide) (by decide) (by decide)⟩
